import Mathlib

/-!
Verification of the document structuring and hybrid retrieval engine of this
repository against its specification.

The authoritative implementation is the Python code of
`docs/plan/pageindex-design.md` (`DocumentParser.parse_markdown`,
`DocumentParser.get_all_chunks`, `DocumentParser._smart_split`,
`PageIndexService.build_index`, `PageIndexService.hybrid_search`) together with
the SQL schema of `python-service/migrations/001_init_pgvector.sql`.

Strings are modelled as `List Char`; Python string primitives (`strip`, slices,
`split`, the regexes used by the code) are given explicit executable
definitions below, each one annotated with the Python expression it embeds.
Scores are modelled as rationals (`ℚ`); the SQL expression
`1 - (embedding <=> v)` (cosine similarity) is abstracted as a similarity
function parameter `sim`.
-/

/-- Python `\s` / `str.strip()` whitespace (ASCII range, as exercised by the
code's inputs): space, tab, newline, carriage return, vertical tab, form feed. -/
def isPySpace (c : Char) : Bool :=
  c = ' ' || c = '\t' || c = '\n' || c = '\r' || c = '\x0b' || c = '\x0c'

/-- Python `s.strip()`: drop leading and trailing whitespace. -/
def pyStrip (l : List Char) : List Char :=
  ((l.dropWhile isPySpace).reverse.dropWhile isPySpace).reverse

/-- Python slice `s[a:b]` for `0 ≤ a, b`. -/
def pySlice (l : List Char) (a b : Nat) : List Char :=
  (l.take b).drop a

/-- Python `s[-n:]` for `n > 0`: the last `min n (length s)` characters. -/
def pyTakeLast (l : List Char) (n : Nat) : List Char :=
  l.drop (l.length - n)

/-- Python `content.split("\n")`. -/
def splitNL : List Char → List (List Char)
  | [] => [[]]
  | c :: t =>
    if c = '\n' then [] :: splitNL t
    else
      match splitNL t with
      | [] => [[c]]
      | h :: r => (c :: h) :: r

/-- Helper for `sepEnd`: scan a whitespace run, remembering the remainder after
the last `'\n'` seen inside the run. -/
def sepEndGo : List Char → Option (List Char) → Option (List Char)
  | [], best => best
  | c :: t, best =>
    if isPySpace c then sepEndGo t (if c = '\n' then some t else best) else best

/-- Given the characters following an initial `'\n'`, decide whether the regex
`\n\s*\n` matches here (as `re.split` does, greedily): it does exactly when the
whitespace run that follows contains another `'\n'`, and the remainder after
the (greedy) match is the input after the last `'\n'` of that run. -/
def sepEnd (l : List Char) : Option (List Char) :=
  sepEndGo l none

theorem sepEndGo_length :
    ∀ (l : List Char) (best : Option (List Char)) (r : List Char),
      sepEndGo l best = some r →
      r.length ≤ l.length ∨ best = some r := by
  intro l
  induction l with
  | nil => intro best r h; right; exact h
  | cons c t ih =>
    intro best r h
    unfold sepEndGo at h
    by_cases hc : isPySpace c
    · simp only [hc, if_true] at h
      rcases ih _ _ h with h' | h'
      · left; simp; omega
      · by_cases hnl : c = '\n'
        · simp [hnl] at h'
          left; simp [← h']
        · simp [hnl] at h'
          right; exact h'
    · simp only [hc, if_false] at h
      right; exact h

theorem sepEnd_length {l r : List Char} (h : sepEnd l = some r) :
    r.length ≤ l.length := by
  rcases sepEndGo_length l none r h with h' | h'
  · exact h'
  · simp at h'

/-- Prepend a character to the first piece of a split result. -/
def consHead (c : Char) : List (List Char) → List (List Char)
  | [] => [[c]]
  | h :: r => (c :: h) :: r

/-- Scanner for `paraSplit`; `fuel` only bounds the recursion (any
`fuel > l.length` gives the same result, see `paraSplitAux_ge`). -/
def paraSplitAux : Nat → List Char → List (List Char)
  | _, [] => [[]]
  | 0, l => [l]
  | fuel + 1, c :: t =>
    if c = '\n' then
      match sepEnd t with
      | some r => [] :: paraSplitAux fuel r
      | none => consHead '\n' (paraSplitAux fuel t)
    else consHead c (paraSplitAux fuel t)

/-- Python `re.split(r'\n\s*\n', content)`: split on blank-line separators. -/
def paraSplit (l : List Char) : List (List Char) :=
  paraSplitAux (l.length + 1) l

theorem paraSplitAux_ge :
    ∀ (f₁ f₂ : Nat) (l : List Char), l.length < f₁ → l.length < f₂ →
      paraSplitAux f₁ l = paraSplitAux f₂ l := by
  intro f₁
  induction f₁ with
  | zero => intro f₂ l h; omega
  | succ f ih =>
    intro f₂ l h1 h2
    cases l with
    | nil =>
      cases f₂ with
      | zero => omega
      | succ g => rfl
    | cons c t =>
      cases f₂ with
      | zero => simp at h2
      | succ g =>
        simp only [List.length_cons] at h1 h2
        simp only [paraSplitAux]
        by_cases hc : c = '\n'
        · simp only [hc, if_true]
          cases hr : sepEnd t with
          | some r =>
            have hrl := sepEnd_length hr
            simp only [ih g r (by omega) (by omega)]
          | none =>
            simp only [ih g t (by omega) (by omega)]
        · simp only [hc, if_false]
          rw [ih g t (by omega) (by omega)]

/-- Sentence-terminal delimiters of `re.split(r'([。！？\n])', para)`. -/
def isSentDelim (c : Char) : Bool :=
  c = '。' || c = '！' || c = '？' || c = '\n'

/-- Python
`sentences = re.split(r'([。！？\n])', para)`;
`sentences = [''.join(i) for i in zip(sentences[0::2], sentences[1::2] + [''])]`:
each sentence keeps its delimiter; a trailing piece (possibly empty) follows
the last delimiter. -/
def splitSentences : List Char → List (List Char)
  | [] => [[]]
  | c :: t =>
    if isSentDelim c then [c] :: splitSentences t
    else consHead c (splitSentences t)

theorem flatten_consHead (c : Char) (ll : List (List Char)) :
    (consHead c ll).flatten = c :: ll.flatten := by
  cases ll <;> simp [consHead]

theorem flatten_splitSentences (l : List Char) : (splitSentences l).flatten = l := by
  induction l with
  | nil => simp [splitSentences]
  | cons c t ih =>
    unfold splitSentences
    by_cases h : isSentDelim c
    · simp [h, ih]
    · simp [h, flatten_consHead, ih]

/-- State of the accumulation loop of `DocumentParser._smart_split`
(`chunks` / `current_chunk`; `current_size` always equals
`len(current_chunk)` in the Python code and is therefore not tracked). -/
structure SState where
  chunks : List (List Char)
  buf : List Char
deriving DecidableEq, Repr

/-- The emission step of `_smart_split`:
`chunks.append(current_chunk.strip())`;
`overlap_text = current_chunk[-overlap:] if overlap > 0 else ""`;
`current_chunk = overlap_text + unit`. -/
def emitSeed (overlap : Nat) (st : SState) (unit : List Char) : SState :=
  { chunks := st.chunks ++ [pyStrip st.buf],
    buf := (if overlap > 0 then pyTakeLast st.buf overlap else []) ++ unit }

/-- One iteration of the sentence loop of `_smart_split`:
`if current_size + len(sentence) > chunk_size and current_chunk: ... else: current_chunk += sentence`. -/
def stepSent (chunk_size overlap : Nat) (st : SState) (s : List Char) : SState :=
  if st.buf.length + s.length > chunk_size ∧ st.buf ≠ [] then emitSeed overlap st s
  else { st with buf := st.buf ++ s }

/-- One iteration of the short-paragraph branch of `_smart_split`:
`if current_size + len(para) + 2 > chunk_size and current_chunk: ... else:`
join with `"\n\n"` (or start the buffer). -/
def stepPara (chunk_size overlap : Nat) (st : SState) (p : List Char) : SState :=
  if st.buf.length + p.length + 2 > chunk_size ∧ st.buf ≠ [] then emitSeed overlap st p
  else { st with buf := if st.buf ≠ [] then st.buf ++ '\n' :: '\n' :: p else p }

/-- `DocumentParser._smart_split(content, chunk_size, overlap)`: split on
blank-line paragraph boundaries; a paragraph longer than `chunk_size` is split
into sentences; units are accumulated greedily with overlap seeding; a trailing
non-empty (after `strip`) buffer is emitted. -/
def smart_split (content : List Char) (chunk_size overlap : Nat) : List (List Char) :=
  let st := (paraSplit content).foldl
    (fun st para =>
      let p := pyStrip para
      if p = [] then st
      else if p.length > chunk_size then
        (splitSentences p).foldl (stepSent chunk_size overlap) st
      else stepPara chunk_size overlap st p)
    ⟨[], []⟩
  if pyStrip st.buf ≠ [] then st.chunks ++ [pyStrip st.buf] else st.chunks

/-- The unit decomposition performed by `_smart_split` before accumulation:
each non-empty stripped paragraph is one unit if it fits `chunk_size`,
otherwise its sentences are the units. -/
def unitsOf (content : List Char) (chunk_size : Nat) : List (List Char) :=
  ((paraSplit content).map (fun para =>
    let p := pyStrip para
    if p = [] then []
    else if p.length > chunk_size then splitSentences p
    else [p])).flatten

/-- One entry of the parser's node arena (a `DocNode` dataclass instance;
`children` holds arena indices; `page_start`/`page_end` are never assigned by
`parse_markdown` and stay `None`, so they are omitted). -/
structure PNode where
  level : Nat
  index : Nat
  title : List Char
  content : List Char
  char_start : Nat
  char_end : Nat
  children : List Nat
deriving DecidableEq, Repr, Inhabited

/-- Update the arena entry at index `i` (a Python attribute mutation). -/
def modifyAt (l : List PNode) (i : Nat) (f : PNode → PNode) : List PNode :=
  l.set i (f (l.getD i default))

/-- Mutable state of the `parse_markdown` line loop: the node arena, the
ancestor stack (arena indices, bottom first), and `char_pos` of the next
line (`sum(len(l) + 1 for l in lines[:i])`). -/
structure PState where
  arena : List PNode
  stack : List Nat
  pos : Nat
deriving DecidableEq, Repr

/-- The loop of `popTo`; `fuel` only bounds the recursion (it decreases the
stack length by one per iteration, so `s.length` iterations always suffice). -/
def popToAux : Nat → List Nat → Nat → List Nat
  | 0, s, _ => s
  | fuel + 1, s, level => if s.length > level then popToAux fuel s.dropLast level else s

/-- `while len(stack) > level: stack.pop()`. -/
def popTo (s : List Nat) (level : Nat) : List Nat :=
  popToAux s.length s level

/-- Heading recognition: the first matching pattern of `HEADING_PATTERNS`
(`^#{k}\s+(.+)$` for `k = 1..4`, tried in order). A line matches with depth
`h` exactly when it starts with `h ∈ [1,4]` hashes followed by a whitespace
character and at least one further character; the captured title, after
`.strip()`, equals the stripped remainder of the line. -/
def headingOf (line : List Char) : Option (Nat × List Char) :=
  let h := (line.takeWhile (· = '#')).length
  if 1 ≤ h ∧ h ≤ 4 then
    match line.drop h with
    | [] => none
    | c :: rest =>
      if isPySpace c ∧ rest ≠ [] then some (h, pyStrip (line.drop h)) else none
  else none

/-- `stack[-1].char_end = char_pos; stack[-1].content = content[stack[-1].char_start:char_pos]`. -/
def finalizeTop (content : List Char) (arena : List PNode) (stack : List Nat) (pos : Nat) :
    List PNode :=
  modifyAt arena (stack.getLastD 0) (fun p =>
    { p with char_end := pos, content := pySlice content p.char_start pos })

/-- One iteration of the `for i, line in enumerate(lines)` loop of
`parse_markdown`. On a heading: finalize the current stack top (when the stack
holds more than the root), create the new node (its `index` read off
`stack[level]` before popping), pop to `level` entries, append the new node as
a child of the new top and push it. -/
def parse_line (content : List Char) (st : PState) (line : List Char) : PState :=
  match headingOf line with
  | none => { st with pos := st.pos + line.length + 1 }
  | some (level, title) =>
    let arena1 := if st.stack.length > 1 then
        finalizeTop content st.arena st.stack st.pos
      else st.arena
    let idx := if level < st.stack.length then
        ((arena1.getD (st.stack.getD level 0) default).children).length
      else 0
    let newId := arena1.length
    let newNode : PNode :=
      { level := level, index := idx, title := title, content := [],
        char_start := st.pos + line.length + 1, char_end := content.length,
        children := [] }
    let stack2 := popTo st.stack level
    let parent := stack2.getLastD 0
    let arena2 := modifyAt arena1 parent (fun p =>
      { p with children := p.children ++ [newId] })
    { arena := arena2 ++ [newNode], stack := stack2 ++ [newId],
      pos := st.pos + line.length + 1 }

/-- `# 处理最后一个节点` of `parse_markdown`: after the loop, the remaining
top gets `char_end = len(content)` and its content slice. -/
def closeFinal (content : List Char) (st : PState) : PState :=
  if st.stack.length > 1 then
    { st with arena := finalizeTop content st.arena st.stack content.length }
  else st

/-- `DocumentParser.parse_markdown(content, filename)`, returning the node
arena; the root is entry `0`. -/
def parse_markdown (content filename : List Char) : List PNode :=
  let root : PNode :=
    { level := 0, index := 0,
      title := if filename = [] then ['文', '档', '根', '节', '点'] else filename,
      content := [], char_start := 0, char_end := content.length, children := [] }
  (closeFinal content ((splitNL content).foldl (parse_line content) ⟨[root], [0], 0⟩)).arena

/-- The scalar fields of a `DocNode` dataclass instance (`node_id` is the
generated unique id, modelled as the arena index). -/
structure NodeData where
  node_id : Nat
  level : Nat
  index : Nat
  title : List Char
  content : List Char
  char_start : Nat
  char_end : Nat
deriving DecidableEq, Repr, Inhabited

/-- A `DocNode` as the recursive object graph Python hands to
`get_all_chunks` / `_save_nodes`: scalar fields plus the `children` list. -/
inductive DocNode where
  | mk : NodeData → List DocNode → DocNode

def DocNode.data : DocNode → NodeData
  | .mk d _ => d

def DocNode.children : DocNode → List DocNode
  | .mk _ cs => cs

instance : Inhabited DocNode := ⟨.mk default []⟩

/-- Read the object graph rooted at arena index `i` out of the parser arena
(`fuel` bounds the recursion; `arena.length` always suffices because children
have strictly larger arena indices than their parents). -/
def arenaToTree (arena : List PNode) : Nat → Nat → DocNode
  | 0, i => .mk { (default : NodeData) with node_id := i } []
  | fuel + 1, i =>
    let p := arena.getD i default
    .mk { node_id := i, level := p.level, index := p.index, title := p.title,
          content := p.content, char_start := p.char_start, char_end := p.char_end }
      (p.children.map (arenaToTree arena fuel))

/-- The root `DocNode` returned by `parse_markdown`. -/
def parse_tree (content filename : List Char) : DocNode :=
  let arena := parse_markdown content filename
  arenaToTree arena arena.length 0

mutual

/-- All nodes of a tree, in preorder. -/
def allNodes : DocNode → List DocNode
  | .mk d cs => .mk d cs :: allNodesL cs

/-- All nodes of a forest, in preorder. -/
def allNodesL : List DocNode → List DocNode
  | [] => []
  | c :: cs => allNodes c ++ allNodesL cs

end

/-- One chunk dict produced by `get_all_chunks`. -/
structure ChunkOut where
  content : List Char
  node_id : Nat
  node_path : List Char
  level : Nat
  char_start : Nat
  char_end : Nat
deriving DecidableEq, Repr, Inhabited

/-- Python `" > ".join(current_path)`. -/
def joinPath (ps : List (List Char)) : List Char :=
  (ps.intersperse [' ', '>', ' ']).flatten

mutual

/-- The recursive `traverse(node, parent_path)` of
`DocumentParser.get_all_chunks`: for a node whose content is non-empty after
`strip`, run `_smart_split` on it and stamp every chunk with the node's id,
path, level and full char range; then recurse into the children. -/
def get_all_chunks_aux (chunk_size overlap : Nat) : DocNode → List (List Char) → List ChunkOut
  | .mk d cs, parent_path =>
    let current_path := parent_path ++ [d.title]
    (if pyStrip d.content ≠ [] then
      (smart_split d.content chunk_size overlap).map (fun ch =>
        { content := ch, node_id := d.node_id, node_path := joinPath current_path,
          level := d.level, char_start := d.char_start, char_end := d.char_end })
    else [])
    ++ get_all_chunks_auxL chunk_size overlap cs current_path

/-- `traverse` over the children, in order. -/
def get_all_chunks_auxL (chunk_size overlap : Nat) :
    List DocNode → List (List Char) → List ChunkOut
  | [], _ => []
  | c :: cs, current_path =>
    get_all_chunks_aux chunk_size overlap c current_path ++
      get_all_chunks_auxL chunk_size overlap cs current_path

end

/-- `DocumentParser.get_all_chunks(root, chunk_size, overlap)`. -/
def get_all_chunks (root : DocNode) (chunk_size overlap : Nat) : List ChunkOut :=
  get_all_chunks_aux chunk_size overlap root []

/-- Python `enumerate(l)` starting at `i`. -/
def withIdx {α : Type} : Nat → List α → List (Nat × α)
  | _, [] => []
  | i, a :: t => (i, a) :: withIdx (i + 1) t

theorem mem_withIdx_snd {α : Type} {p : Nat × α} :
    ∀ {i : Nat} {l : List α}, p ∈ withIdx i l → p.2 ∈ l := by
  intro i l
  induction l generalizing i with
  | nil => intro h; simp [withIdx] at h
  | cons a t ih =>
    intro h
    simp only [withIdx, List.mem_cons] at h
    rcases h with h | h
    · subst h; simp
    · exact List.mem_cons_of_mem _ (ih h)

/-- A `doc_trees` row (`tree_id, document_id, title, total_nodes`;
`total_nodes` defaults to 0 on insert). -/
structure TreeRow where
  tree_id : Nat
  document_id : Nat
  title : List Char
  total_nodes : Nat
deriving DecidableEq, Repr

/-- A `doc_nodes` row as inserted by `PageIndexService._save_nodes`
(`embedding` is never written there and stays null). -/
structure NodeRow where
  id : Nat
  tree_id : Nat
  parent_id : Option Nat
  node_level : Nat
  node_index : Nat
  title : List Char
  char_start : Nat
  char_end : Nat
  summary : Option (List Char)
  content_preview : Option (List Char)
  embedding : Option (List ℚ)
deriving DecidableEq, Repr

/-- A `document_chunks` row (`metadata` json flattened into its
`node_path`/`level` entries). -/
structure ChunkRowDB where
  id : Nat
  document_id : Nat
  chunk_index : Nat
  content : List Char
  node_path : List Char
  level : Nat
  node_id : Option Nat
deriving DecidableEq, Repr

/-- A `chunk_embeddings` row. -/
structure EmbRow where
  chunk_id : Nat
  embedding : List ℚ
deriving DecidableEq, Repr

/-- The database state seen by `build_index` / `hybrid_search`: the four
tables plus a generator counter for fresh ids (uuids / SERIAL keys). -/
structure DB where
  doc_trees : List TreeRow
  doc_nodes : List NodeRow
  document_chunks : List ChunkRowDB
  chunk_embeddings : List EmbRow
  next_id : Nat
deriving DecidableEq, Repr

mutual

/-- `PageIndexService._save_nodes(conn, tree_id, node, parent_db_id, level, index)`:
insert the node's row (summary = first 200 chars of content, preview = first
100, embedding null), then recursively save the children with `level + 1` and
their enumeration index; returns the updated state and the subtree node count. -/
def save_nodes (tree_id : Nat) (st : DB) : DocNode → Option Nat → Nat → Nat → DB × Nat
  | .mk d cs, parent_db_id, level, index =>
    let db_id := st.next_id
    let row : NodeRow :=
      { id := db_id, tree_id := tree_id, parent_id := parent_db_id,
        node_level := level, node_index := index, title := d.title,
        char_start := d.char_start, char_end := d.char_end,
        summary := if d.content ≠ [] then some (d.content.take 200) else none,
        content_preview := if d.content ≠ [] then some (d.content.take 100) else none,
        embedding := none }
    let st1 := { st with doc_nodes := st.doc_nodes ++ [row], next_id := st.next_id + 1 }
    save_nodes_children tree_id st1 cs db_id (level + 1) 0 1

/-- `for i, child in enumerate(node.children): count += _save_nodes(...)`:
save the children in order, threading the state, the enumeration index `i`
and the accumulated count. -/
def save_nodes_children (tree_id : Nat) (st : DB) :
    List DocNode → Nat → Nat → Nat → Nat → DB × Nat
  | [], _, _, _, acc => (st, acc)
  | c :: cs, parent_db_id, level, i, acc =>
    let r := save_nodes tree_id st c (some parent_db_id) level i
    save_nodes_children tree_id r.1 cs parent_db_id level (i + 1) (acc + r.2)

end

/-- One iteration of the chunk loop of `build_index`:
`INSERT INTO document_chunks (document_id, chunk_index, content, metadata, node_id)`
with `chunk_index = i + 1`; the `uk_chunk_document_index UNIQUE
(document_id, chunk_index)` constraint of `001_init_pgvector.sql` makes the
insert fail when a row with the same `(document_id, chunk_index)` exists. -/
def insert_chunk (st : DB) (document_id : Nat) (i : Nat) (chunk : ChunkOut) :
    Except Unit DB :=
  if st.document_chunks.any (fun r =>
      r.document_id = document_id ∧ r.chunk_index = i + 1) then
    .error ()
  else
    .ok { st with
      document_chunks := st.document_chunks ++
        [{ id := st.next_id, document_id := document_id, chunk_index := i + 1,
           content := chunk.content, node_path := chunk.node_path,
           level := chunk.level, node_id := some chunk.node_id }],
      next_id := st.next_id + 1 }

/-- `PageIndexService.build_index(document_id, content, filename, conn)` with
`registry = None` (the declared default), so no embeddings are generated:
parse, insert the tree row, save the nodes, update `total_nodes`, then insert
one `document_chunks` row per chunk of `get_all_chunks(root, 400, 50)`.
No `DELETE` is ever issued. Returns the final state together with
`(tree_id, total_nodes, total_chunks)`. -/
def build_index (st : DB) (document_id : Nat) (content filename : List Char) :
    Except Unit (DB × Nat × Nat × Nat) :=
  let root := parse_tree content filename
  let tree_id := st.next_id
  let st1 := { st with
    doc_trees := st.doc_trees ++
      [{ tree_id := tree_id, document_id := document_id, title := filename,
         total_nodes := 0 }],
    next_id := st.next_id + 1 }
  let r := save_nodes tree_id st1 root none 0 0
  let node_count := r.2
  let st2 := { r.1 with
    doc_trees := r.1.doc_trees.map (fun t =>
      if t.tree_id = tree_id then { t with total_nodes := node_count } else t) }
  let chunks := get_all_chunks root 400 50
  ((withIdx 0 chunks).foldlM (fun s ic => insert_chunk s document_id ic.1 ic.2) st2).map
    (fun stF => (stF, tree_id, node_count, chunks.length))

/-- The per-node score of the routing query:
`1 - (embedding <=> $1::vector)`, abstracted by `sim`. -/
def nodeScore (sim : List ℚ → List ℚ → ℚ) (qe : List ℚ) (n : NodeRow) : ℚ :=
  sim qe (n.embedding.getD [])

/-- The routing lookup of `hybrid_search`: the node query
(`WHERE embedding IS NOT NULL ORDER BY embedding <=> $1::vector LIMIT 10`)
followed by `node_scores = {n["node_id"]: n["score"] for n in relevant_nodes}`.
The `ORDER BY` is a stable descending sort on the score (Postgres sorts by
ascending cosine distance). -/
def routing_scores (sim : List ℚ → List ℚ → ℚ) (st : DB) (qe : List ℚ) :
    List (Nat × ℚ) :=
  (((st.doc_nodes.filter (fun n => n.embedding.isSome)).insertionSort
      (fun a b => nodeScore sim qe b ≤ nodeScore sim qe a)).take 10).map
    (fun n => (n.id, nodeScore sim qe n))

/-- The `FROM chunk_embeddings ce JOIN document_chunks dc ON ce.chunk_id = dc.id`
join of the chunk query: each embedding row paired with its chunk row. -/
def joined_chunks (st : DB) : List (ChunkRowDB × List ℚ) :=
  st.chunk_embeddings.filterMap (fun ce =>
    (st.document_chunks.find? (fun dc => dc.id == ce.chunk_id)).map
      (fun dc => (dc, ce.embedding)))

/-- The chunk retrieval query of `hybrid_search`:
`WHERE 1 - (ce.embedding <=> $1::vector) >= $2 ORDER BY ce.embedding <=> $1::vector LIMIT $3`
with `$2 = min_score` and `$3 = top_k * 2`. -/
def chunk_candidates (sim : List ℚ → List ℚ → ℚ) (st : DB) (qe : List ℚ)
    (min_score : ℚ) (top_k : Nat) : List (ChunkRowDB × List ℚ) :=
  (((joined_chunks st).filter (fun p => min_score ≤ sim qe p.2)).insertionSort
      (fun a b => sim qe b.2 ≤ sim qe a.2)).take (top_k * 2)

/-- One result dict of `hybrid_search` (the Python dict keys; no
`chunk_index` key exists). -/
structure FusionResult where
  chunk_id : Nat
  document_id : Nat
  content : List Char
  node_path : List Char
  node_title : Option (List Char)
  score : ℚ
  vector_score : ℚ
  node_boost : ℚ
deriving DecidableEq, Repr, Inhabited

/-- The fusion loop body of `hybrid_search`:
`node_boost = node_scores[node_id] * 0.3` when the chunk's node id is in the
routing lookup (else 0); `final_score = min(vector_score + node_boost, 1.0)`;
`node_title` comes from the `LEFT JOIN doc_nodes`. -/
def fuse (sim : List ℚ → List ℚ → ℚ) (st : DB) (qe : List ℚ)
    (node_scores : List (Nat × ℚ)) (p : ChunkRowDB × List ℚ) : FusionResult :=
  let vector_score := sim qe p.2
  let node_boost : ℚ :=
    match p.1.node_id with
    | some nid =>
      match node_scores.lookup nid with
      | some s => s * (3 / 10)
      | none => 0
    | none => 0
  { chunk_id := p.1.id, document_id := p.1.document_id, content := p.1.content,
    node_path := p.1.node_path,
    node_title := p.1.node_id.bind (fun nid =>
      (st.doc_nodes.find? (fun n => n.id == nid)).map (fun n => n.title)),
    score := min (vector_score + node_boost) 1,
    vector_score := vector_score, node_boost := node_boost }

/-- `PageIndexService.hybrid_search(query, query_embedding, conn, top_k,
min_score, document_ids)`: routing lookup, thresholded vector retrieval of
`top_k * 2` candidates, fusion scoring, then
`results.sort(key=lambda x: x["score"], reverse=True)` (a stable descending
sort) truncated to `top_k`. The `document_ids` parameter is accepted but never
used by the Python code. -/
def hybrid_search (sim : List ℚ → List ℚ → ℚ) (st : DB) (query_embedding : List ℚ)
    (top_k : Nat) (min_score : ℚ) (document_ids : Option (List Nat)) :
    List FusionResult :=
  let node_scores := routing_scores sim st query_embedding
  let results := (chunk_candidates sim st query_embedding min_score top_k).map
    (fuse sim st query_embedding node_scores)
  ((results.insertionSort (fun a b => b.score ≤ a.score)).take top_k)

/-- A 1-dimensional instantiation of the abstract similarity for concrete
evaluations: the dot product (`1 - cosine distance` for unit vectors). -/
def dotSim (u v : List ℚ) : ℚ :=
  (List.zipWith (· * ·) u v).sum

/-- Helper for `trimConcat`: concatenate the remaining chunks, dropping from
each one the overlap-seeded prefix it inherited from its predecessor (whose
length is `min overlap (length of the predecessor)`). -/
def trimConcatGo (overlap : Nat) : List Char → List (List Char) → List Char
  | _, [] => []
  | prev, c :: rest => c.drop (min overlap prev.length) ++ trimConcatGo overlap c rest

/-- Concatenate a chunk list, trimming from every chunk after the first the
overlap-seeded prefix inherited from its predecessor. -/
def trimConcat (overlap : Nat) : List (List Char) → List Char
  | [] => []
  | c :: rest => c ++ trimConcatGo overlap c rest

/-! ### Concrete inputs used by the counterexamples and witnesses -/

/-- `"# A\nx\n# B\ny"`: two top-level sections with one content line each. -/
def c1text : List Char := "# A\nx\n# B\ny".toList

/-- `"# A\n### C\n### E"`: a depth-3 heading immediately followed by another
depth-3 heading, after a depth-1 heading. -/
def c3text : List Char := "# A\n### C\n### E".toList

/-- Two short paragraphs; with `chunk_size = 10` the first is emitted alone. -/
def c4text : List Char := "aaa\n\nbbbbbbbbb".toList

/-- Two paragraphs separated by a blank line. -/
def c7text : List Char := "aaaa\n\nbbbb".toList

/-- A document with one heading and one content line. -/
def c2text : List Char := "# A\nhello".toList

/-- The empty database state. -/
def db0 : DB := ⟨[], [], [], [], 0⟩

/-- Retrieval state for C5: one routed node with a negative routing score and
one chunk whose embedding matches the query exactly. -/
def dbC5 : DB := ⟨[], [⟨7, 0, none, 1, 0, ['N'], 0, 0, none, none, some [-(1/2)]⟩],
  [⟨1, 0, 1, ['c'], [], 1, some 7⟩], [⟨1, [1]⟩], 50⟩

/-- Retrieval state for C8: chunk id 1 has `chunk_index` 2 and vector score
9/10; chunk id 2 has `chunk_index` 1, vector score 8/10 and a node boost of
1/10, so both final scores are 9/10. -/
def dbC8 : DB := ⟨[], [⟨7, 0, none, 1, 0, ['N'], 0, 0, none, none, some [1/3]⟩],
  [⟨1, 0, 2, ['a'], [], 1, none⟩, ⟨2, 0, 1, ['b'], [], 1, some 7⟩],
  [⟨1, [9/10]⟩, ⟨2, [8/10]⟩], 50⟩

/-- Retrieval state for C6: a single chunk belonging to document 1. -/
def dbC6 : DB := ⟨[], [], [⟨1, 1, 1, ['z'], [], 0, none⟩], [⟨1, [1]⟩], 9⟩

/-! ### C1 counterexample -/

/-- C1 is false: in `parse_markdown "# A\nx\n# B\ny"`, the root spans
`[0, 11)` and has children, but every child's `char_start` is positive (the
children are `[4, 6)` and `[10, 11)`), so position `0` of the root's range is
covered by no child: the sibling ranges do not union to the parent's range. -/
theorem c1_counterexample :
    (parse_markdown c1text ['f']).getD 0 default = ⟨0, 0, ['f'], [], 0, 11, [1, 2]⟩ ∧
    ((parse_markdown c1text ['f']).getD 1 default).char_start = 4 ∧
    ((parse_markdown c1text ['f']).getD 1 default).char_end = 6 ∧
    ((parse_markdown c1text ['f']).getD 2 default).char_start = 10 ∧
    ((parse_markdown c1text ['f']).getD 2 default).char_end = 11 := by
  decide

/-! ### C3 counterexample -/

/-- C3 is false: parsing `"# A\n### C\n### E"`, the second depth-3 heading
`E` is pushed as a child of the depth-3 node `C` (the stack is popped by
length, not until the top's depth is `< 3`), so the stack top at push time
had depth `3`, not `< 3`. -/
theorem c3_counterexample :
    ((parse_markdown c3text ['f']).getD 2 default).title = ['C'] ∧
    ((parse_markdown c3text ['f']).getD 2 default).level = 3 ∧
    ((parse_markdown c3text ['f']).getD 2 default).children = [3] ∧
    ((parse_markdown c3text ['f']).getD 3 default).title = ['E'] ∧
    ((parse_markdown c3text ['f']).getD 3 default).level = 3 := by
  decide

/-! ### C4: evaluation at the failing input -/

/-- `_smart_split` has no `min_chunk_size` parameter and no merging: on
`"aaa\n\nbbbbbbbbb"` with `chunk_size = 10` it emits the 3-character chunk
`"aaa"` followed by `"bbbbbbbbb"`; the non-final chunk is shorter than any
`min_chunk_size > 3` (the documented default is 120), and no forward merge
happens. -/
theorem c4_failing_eval :
    smart_split c4text 10 0 = ["aaa".toList, "bbbbbbbbb".toList] ∧
    ("aaa".toList).length < 120 := by
  decide

/-! ### C6: evaluation at the failing input -/

/-- `hybrid_search` ignores its `document_ids` argument: with the candidate
documents restricted to `[0]`, the single chunk of document `1` is still
returned. -/
theorem c6_failing_eval :
    (hybrid_search dotSim dbC6 [1] 5 (1 / 2) (some [0])).map
      (fun r => r.document_id) = [1] := by
  norm_num [hybrid_search, routing_scores, nodeScore, joined_chunks,
    chunk_candidates, fuse, dotSim, List.insertionSort, List.orderedInsert,
    List.filter, List.filterMap, List.find?, List.lookup, dbC6]

/-! ### C5 counterexample -/

/-- C5 is false as stated: in `dbC5` the only chunk has `vector_score = 1`
and its node is in the routing lookup, yet its routing score is `-1/2`, so
`node_boost = -3/20` and `final_score = 17/20 ≠ 1`. -/
theorem c5_counterexample :
    (hybrid_search dotSim dbC5 [1] 5 (1 / 2) none).map
      (fun r => (r.vector_score, r.node_boost, r.score)) =
      [(1, -(3 / 20), 17 / 20)] := by
  norm_num [hybrid_search, routing_scores, nodeScore, joined_chunks,
    chunk_candidates, fuse, dotSim, List.insertionSort, List.orderedInsert,
    List.filter, List.filterMap, List.find?, List.lookup, dbC5]

/-! ### C7 counterexample -/

/-- C7 is false: on `"aaaa\n\nbbbb"` with `chunk_size = 5`, `overlap = 2`,
the chunks are `["aaaa", "aabbbb"]`; trimming the 2-character overlap-seeded
prefix of the second chunk and concatenating yields `"aaaabbbb"`, which lost
the `"\n\n"` paragraph separator of the original text. -/
theorem c7_counterexample :
    smart_split c7text 5 2 = ["aaaa".toList, "aabbbb".toList] ∧
    trimConcat 2 (smart_split c7text 5 2) ≠ c7text := by
  decide

/-! ### C8 counterexample -/

/-- C8's tie-breaking clause is false: in `dbC8` both results have final
score `9/10`, and they are returned with chunk id 1 (whose `chunk_index` is
2) before chunk id 2 (whose `chunk_index` is 1) — the stable sort keeps the
candidate fetch order and never consults `chunk_index` (which the result
dicts do not even contain). -/
theorem c8_counterexample :
    (hybrid_search dotSim dbC8 [1] 5 (1 / 2) none).map
      (fun r => (r.chunk_id, r.score)) = [(1, 9 / 10), (2, 9 / 10)] ∧
    dbC8.document_chunks.map (fun c => (c.id, c.chunk_index)) = [(1, 2), (2, 1)] := by
  norm_num [hybrid_search, routing_scores, nodeScore, joined_chunks,
    chunk_candidates, fuse, dotSim, List.insertionSort, List.orderedInsert,
    List.filter, List.filterMap, List.find?, List.lookup, dbC8]

/-! ### C2 counterexample -/

/-- C2 is false: indexing `"# A\nhello"` into the empty store succeeds and
writes one chunk row, but `build_index` never deletes, so re-ingesting the
same document id violates the `UNIQUE (document_id, chunk_index)` constraint
and fails — re-indexing is neither preceded by a delete nor produces an
identical chunk set. -/
theorem c2_counterexample :
    (build_index db0 0 c2text "doc".toList).toOption.map
      (fun p => p.1.document_chunks.length) = some 1 ∧
    (build_index db0 0 c2text "doc".toList).toOption.map
      (fun p => (build_index p.1 0 c2text "doc".toList).toOption.isSome) =
      some false := by
  decide

/-! ### C8 amended: descending final-score order -/

/-- C8 amended: the result list of `hybrid_search` is sorted in descending
order of `final_score` (`results.sort(key=..., reverse=True)` is a stable
descending sort and ties keep the candidate fetch order; `chunk_index` is
never consulted). -/
theorem c8_amended (sim : List ℚ → List ℚ → ℚ) (st : DB) (qe : List ℚ)
    (top_k : Nat) (min_score : ℚ) (document_ids : Option (List Nat)) :
    List.Sorted (fun a b : FusionResult => b.score ≤ a.score)
      (hybrid_search sim st qe top_k min_score document_ids) := by
  haveI : IsTotal FusionResult (fun a b => b.score ≤ a.score) :=
    ⟨fun a b => le_total b.score a.score⟩
  haveI : IsTrans FusionResult (fun a b => b.score ≤ a.score) :=
    ⟨fun _ _ _ h1 h2 => le_trans h2 h1⟩
  exact (List.sorted_insertionSort _ _).sublist (List.take_sublist _ _)

theorem lookup_mem {α β : Type} [BEq α] [LawfulBEq α] :
    ∀ {l : List (α × β)} {a : α} {b : β}, l.lookup a = some b → (a, b) ∈ l := by
  intro l
  induction l with
  | nil => intro a b h; simp [List.lookup] at h
  | cons p t ih =>
    intro a b h
    rw [List.lookup] at h
    by_cases he : a == p.1
    · simp only [he, if_true] at h
      cases h
      have : a = p.1 := eq_of_beq he
      subst this
      simp
    · simp only [he] at h
      exact List.mem_cons_of_mem _ (ih h)

theorem head?_take_pos {α : Type} {l : List α} {n : Nat} (h : 0 < n) :
    (l.take n).head? = l.head? := by
  cases l with
  | nil => simp
  | cons a t =>
    cases n with
    | zero => omega
    | succ m => simp [List.take_succ_cons]

theorem head?_eq_of_sorted_mem {α : Type} {r : α → α → Prop} {l : List α} {a : α}
    (hs : List.Sorted r l) (ha : a ∈ l) (hm : ∀ b ∈ l, r b a → b = a) :
    l.head? = some a := by
  cases l with
  | nil => cases ha
  | cons h t =>
    rcases List.mem_cons.mp ha with rfl | hat
    · rfl
    · have := hm h (List.mem_cons_self h t) (List.rel_of_sorted_cons hs a hat)
      simp [this]

/-! ### C5 amended -/

/-- C5 amended: every retrieved chunk's `final_score` is
`min(vector_score + node_boost, 1.0)` with `node_boost` equal to a routing
score times `0.3` (or `0` when the chunk's node is not routed); and a chunk
that is the unique exact vector match (similarity `1`, all candidate
similarities at most `1`) whose node is routed with a *non-negative* routing
score gets `final_score` exactly `1.0` and is ranked first. (As stated the
claim fails for a negative routing score, see the counterexample.) -/
theorem c5_amended (sim : List ℚ → List ℚ → ℚ) (st : DB) (qe : List ℚ)
    (top_k : Nat) (min_score : ℚ) (document_ids : Option (List Nat))
    (c : ChunkRowDB) (e : List ℚ) (nid : Nat) (rs : ℚ)
    (h1 : (c, e) ∈ joined_chunks st)
    (h2 : sim qe e = 1)
    (h3 : ∀ p ∈ joined_chunks st, sim qe p.2 = 1 → p = (c, e))
    (h4 : ∀ p ∈ joined_chunks st, sim qe p.2 ≤ 1)
    (h5 : c.node_id = some nid)
    (h6 : (routing_scores sim st qe).lookup nid = some rs)
    (h7 : 0 ≤ rs)
    (h8 : min_score ≤ 1)
    (h9 : 1 ≤ top_k) :
    (∀ r ∈ hybrid_search sim st qe top_k min_score document_ids,
        r.score = min (r.vector_score + r.node_boost) 1 ∧
        (r.node_boost = 0 ∨ ∃ m s, (m, s) ∈ routing_scores sim st qe ∧
          r.node_boost = s * (3 / 10))) ∧
    (hybrid_search sim st qe top_k min_score document_ids).head?.map
        (fun r => (r.chunk_id, r.score, r.vector_score, r.node_boost)) =
      some (c.id, 1, 1, rs * (3 / 10)) := by
  classical
  have score_le_one : ∀ p, (fuse sim st qe (routing_scores sim st qe) p).score ≤ 1 := by
    intro p
    simp [fuse]
  constructor
  · -- the fusion formula, for every result
    intro r hr
    have hr' : r ∈ (chunk_candidates sim st qe min_score top_k).map
        (fuse sim st qe (routing_scores sim st qe)) := by
      have := (List.take_sublist top_k _).subset hr
      exact (List.mem_insertionSort _).mp this
    obtain ⟨p, _, rfl⟩ := List.mem_map.mp hr'
    refine ⟨rfl, ?_⟩
    rcases hn : p.1.node_id with _ | m
    · left; simp [fuse, hn]
    · rcases hl : (routing_scores sim st qe).lookup m with _ | s
      · left; simp [fuse, hn, hl]
      · right
        exact ⟨m, s, lookup_mem hl, by simp [fuse, hn, hl]⟩
  · -- the exact-match scenario
    haveI : IsTotal (ChunkRowDB × List ℚ)
        (fun a b => sim qe b.2 ≤ sim qe a.2) :=
      ⟨fun a b => le_total (sim qe b.2) (sim qe a.2)⟩
    haveI : IsTrans (ChunkRowDB × List ℚ)
        (fun a b => sim qe b.2 ≤ sim qe a.2) :=
      ⟨fun _ _ _ hab hbc => le_trans hbc hab⟩
    set F := (joined_chunks st).filter (fun p => decide (min_score ≤ sim qe p.2))
      with hF
    set L := F.insertionSort (fun a b => sim qe b.2 ≤ sim qe a.2) with hL
    have hcF : (c, e) ∈ F := by
      rw [hF]
      refine List.mem_filter.mpr ⟨h1, ?_⟩
      simpa [h2] using h8
    have hcL : (c, e) ∈ L := (List.mem_insertionSort _).mpr hcF
    have hLsorted : List.Sorted (fun a b => sim qe b.2 ≤ sim qe a.2) L :=
      List.sorted_insertionSort _ _
    have hLsub : ∀ p ∈ L, p ∈ joined_chunks st := by
      intro p hp
      exact List.mem_of_mem_filter ((List.mem_insertionSort _).mp hp)
    have hhead : L.head? = some (c, e) := by
      apply head?_eq_of_sorted_mem hLsorted hcL
      intro b hb hrb
      have hb' := hLsub b hb
      have : sim qe b.2 = 1 := le_antisymm (h4 b hb') (by simpa [h2] using hrb)
      exact h3 b hb' this
    have hcand : (chunk_candidates sim st qe min_score top_k).head? = some (c, e) := by
      rw [chunk_candidates, ← hF, ← hL]
      rw [head?_take_pos (by omega)]
      exact hhead
    have hx : ((chunk_candidates sim st qe min_score top_k).map
        (fuse sim st qe (routing_scores sim st qe))).head? =
        some (fuse sim st qe (routing_scores sim st qe) (c, e)) := by
      rw [List.head?_map, hcand]
      rfl
    set x := fuse sim st qe (routing_scores sim st qe) (c, e) with hxdef
    have hxscore : x.score = 1 := by
      have hboost : x.node_boost = rs * (3 / 10) := by
        simp [hxdef, fuse, h5, h6]
      have hvec : x.vector_score = 1 := by
        simp [hxdef, fuse, h2]
      have : x.score = min (x.vector_score + x.node_boost) 1 := by
        simp [hxdef, fuse]
      rw [this, hvec, hboost]
      have : (0 : ℚ) ≤ rs * (3 / 10) := mul_nonneg h7 (by norm_num)
      exact min_eq_right (by linarith)
    obtain ⟨rest, hrest⟩ : ∃ rest,
        (chunk_candidates sim st qe min_score top_k).map
          (fuse sim st qe (routing_scores sim st qe)) = x :: rest := by
      cases hRs : (chunk_candidates sim st qe min_score top_k).map
          (fuse sim st qe (routing_scores sim st qe)) with
        | nil => rw [hRs] at hx; cases hx
        | cons a b =>
          rw [hRs] at hx
          exact ⟨b, by simpa using (Option.some.injEq _ _).mp hx ▸ rfl⟩
    have hrest_le : ∀ m ∈ List.insertionSort
        (fun a b : FusionResult => b.score ≤ a.score) rest, m.score ≤ 1 := by
      intro m hm
      have hm' : m ∈ rest := (List.mem_insertionSort _).mp hm
      have : m ∈ (chunk_candidates sim st qe min_score top_k).map
          (fuse sim st qe (routing_scores sim st qe)) := by
        rw [hrest]; exact List.mem_cons_of_mem _ hm'
      obtain ⟨p, _, rfl⟩ := List.mem_map.mp this
      exact score_le_one p
    have hxchunk : x.chunk_id = c.id := by
      simp [hxdef, fuse]
    have hxvec : x.vector_score = 1 := by
      simp [hxdef, fuse, h2]
    have hxboost : x.node_boost = rs * (3 / 10) := by
      simp [hxdef, fuse, h5, h6]
    rw [hybrid_search]
    rw [hrest]
    rw [head?_take_pos (by omega)]
    simp only [List.insertionSort]
    cases hM : List.insertionSort (fun a b : FusionResult => b.score ≤ a.score) rest with
    | nil =>
      simp [List.orderedInsert, hxchunk, hxvec, hxboost, hxscore]
    | cons m M' =>
      have hle : m.score ≤ x.score := by
        rw [hxscore]
        exact hrest_le m (by rw [hM]; simp)
      rw [List.orderedInsert_of_le _ M' hle]
      simp [hxchunk, hxvec, hxboost, hxscore]

/-- Witness state for `c5_amended`: one routed node with routing score `1/2`
and one chunk whose embedding matches the query exactly. -/
def c5wrow : ChunkRowDB := ⟨1, 0, 1, ['c'], [], 1, some 7⟩

/-- The database of the `c5_amended` witness. -/
def dbC5w : DB := ⟨[], [⟨7, 0, none, 1, 0, ['N'], 0, 0, none, none, some [1 / 2]⟩],
  [c5wrow], [⟨1, [1]⟩], 50⟩

/-- Concrete instance of `c5_amended`: the unique exact-match chunk with a
routed, non-negative routing score gets final score exactly 1 and heads the
result list. -/
theorem c5_amended_witness :
    (∀ r ∈ hybrid_search dotSim dbC5w [1] 5 (1 / 2) none,
        r.score = min (r.vector_score + r.node_boost) 1 ∧
        (r.node_boost = 0 ∨ ∃ m s, (m, s) ∈ routing_scores dotSim dbC5w [1] ∧
          r.node_boost = s * (3 / 10))) ∧
    (hybrid_search dotSim dbC5w [1] 5 (1 / 2) none).head?.map
        (fun r => (r.chunk_id, r.score, r.vector_score, r.node_boost)) =
      some (1, 1, 1, (1 / 2) * (3 / 10)) := by
  have hj : joined_chunks dbC5w = [(c5wrow, [1])] := rfl
  exact c5_amended dotSim dbC5w [1] 5 (1 / 2) none c5wrow [1] 7 (1 / 2)
    (by rw [hj]; exact List.mem_singleton.mpr rfl)
    (by norm_num [dotSim])
    (by rw [hj]; intro p hp _; simpa using hp)
    (by rw [hj]; intro p hp; simp at hp; subst hp; norm_num [dotSim])
    rfl
    (by norm_num [routing_scores, nodeScore, dotSim, dbC5w, List.insertionSort,
      List.orderedInsert, List.filter, List.lookup])
    (by norm_num)
    (by norm_num)
    (by omega)

mutual

theorem save_nodes_keeps (tree_id : Nat) :
    ∀ (n : DocNode) (st : DB) (parent : Option Nat) (level idx : Nat),
      (save_nodes tree_id st n parent level idx).1.document_chunks =
        st.document_chunks ∧
      (save_nodes tree_id st n parent level idx).1.doc_trees = st.doc_trees
  | .mk d cs => fun st parent level idx => by
    simp only [save_nodes]
    exact save_nodes_children_keeps tree_id cs _ _ _ _ _

theorem save_nodes_children_keeps (tree_id : Nat) :
    ∀ (cs : List DocNode) (st : DB) (parent_db_id level i acc : Nat),
      (save_nodes_children tree_id st cs parent_db_id level i acc).1.document_chunks =
        st.document_chunks ∧
      (save_nodes_children tree_id st cs parent_db_id level i acc).1.doc_trees =
        st.doc_trees
  | [] => fun st parent_db_id level i acc => by
    simp [save_nodes_children]
  | c :: cs => fun st parent_db_id level i acc => by
    simp only [save_nodes_children]
    have h1 := save_nodes_keeps tree_id c st (some parent_db_id) level i
    have h2 := save_nodes_children_keeps tree_id cs
      (save_nodes tree_id st c (some parent_db_id) level i).1 parent_db_id level
      (i + 1) (acc + (save_nodes tree_id st c (some parent_db_id) level i).2)
    exact ⟨h2.1.trans h1.1, h2.2.trans h1.2⟩

end

theorem chunk_fold_ok (document_id : Nat) :
    ∀ (chunks : List ChunkOut) (i : Nat) (s s' : DB),
      (withIdx i chunks).foldlM
        (fun st ic => insert_chunk st document_id ic.1 ic.2) s = .ok s' →
      ∃ ys, s'.document_chunks = s.document_chunks ++ ys ∧
        ys.map (fun r => (r.document_id, r.chunk_index)) =
          (withIdx i chunks).map (fun ic => (document_id, ic.1 + 1)) := by
  intro chunks
  induction chunks with
  | nil =>
    intro i s s' h
    simp only [withIdx, List.foldlM_nil] at h
    have hss : s = s' := by simpa [pure, Except.pure] using h
    exact ⟨[], by simp [hss, withIdx]⟩
  | cons c cs ih =>
    intro i s s' h
    simp only [withIdx, List.foldlM_cons] at h
    rcases hstep : insert_chunk s document_id i c with _ | s1
    · rw [hstep] at h
      simp [Bind.bind, Except.bind] at h
    · rw [hstep] at h
      simp only [Bind.bind, Except.bind] at h
      obtain ⟨ys', hys1, hys2⟩ := ih (i + 1) s1 s' h
      rw [insert_chunk] at hstep
      split at hstep
      · simp at hstep
      · cases hstep
        refine ⟨⟨s.next_id, document_id, i + 1, c.content, c.node_path,
          c.level, some c.node_id⟩ :: ys', ?_, ?_⟩
        · simpa using hys1
        · simp [withIdx, hys2]

theorem chunk_fold_error (document_id : Nat) (c : ChunkOut) (cs : List ChunkOut)
    (i : Nat) (s : DB)
    (h : ∃ r ∈ s.document_chunks,
      r.document_id = document_id ∧ r.chunk_index = i + 1) :
    (withIdx i (c :: cs)).foldlM
      (fun st ic => insert_chunk st document_id ic.1 ic.2) s = .error () := by
  simp only [withIdx, List.foldlM_cons]
  have hins : insert_chunk s document_id i c = .error () := by
    have hany : (s.document_chunks.any fun r =>
        r.document_id = document_id ∧ r.chunk_index = i + 1) = true := by
      simpa using h
    rw [insert_chunk]
    simp [hany]
    exact h
  rw [hins]
  rfl


theorem except_map_ok {α β : Type} (f : α → β) (e : Except Unit α) (y : β)
    (h : e.map f = .ok y) : ∃ s, e = .ok s ∧ f s = y := by
  cases e with
  | error u => simp [Except.map] at h
  | ok s => exact ⟨s, rfl, by simpa [Except.map] using h⟩

theorem map_fold_error {β : Type} (f : DB → β) (document_id : Nat)
    (c0 : ChunkOut) (cs0 : List ChunkOut) (S2 : DB)
    (hrow : ∃ r ∈ S2.document_chunks,
      r.document_id = document_id ∧ r.chunk_index = 1) :
    Except.map f ((withIdx 0 (c0 :: cs0)).foldlM
      (fun a ic => insert_chunk a document_id ic.1 ic.2) S2) = .error () := by
  rw [chunk_fold_error document_id c0 cs0 0 S2 (by simpa using hrow)]
  rfl

/-- If the store already holds a row `(document_id, chunk_index = 1)` and the
document yields at least one chunk, `build_index` fails on the first chunk
insert (it issues no `DELETE` beforehand). -/
theorem build_index_conflict (s : DB) (document_id : Nat)
    (content filename : List Char)
    (hrow : ∃ r ∈ s.document_chunks,
      r.document_id = document_id ∧ r.chunk_index = 1)
    (hne : get_all_chunks (parse_tree content filename) 400 50 ≠ []) :
    build_index s document_id content filename = .error () := by
  obtain ⟨c0, cs0, hch⟩ := List.exists_cons_of_ne_nil hne
  simp only [build_index]
  rw [hch]
  apply map_fold_error
  simp only
  rw [(save_nodes_keeps _ _ _ _ _ _).1]
  simpa using hrow

/-! ### C2 amended -/

/-- C2 amended: `build_index` never deletes — a successful run appends its
chunk rows (with `chunk_index` `1, 2, …` in order) after whatever rows the
store already holds; consequently re-ingesting the same document id is *not*
idempotent: when the run produced at least one chunk, running `build_index`
again for the same document id fails on the
`UNIQUE (document_id, chunk_index)` constraint instead of replacing the set. -/
theorem c2_amended (st : DB) (document_id : Nat) (content filename : List Char)
    (st' : DB) (res : Nat × Nat × Nat)
    (h : build_index st document_id content filename = .ok (st', res)) :
    (∃ ys, st'.document_chunks = st.document_chunks ++ ys ∧
       ys.map (fun r => (r.document_id, r.chunk_index)) =
         (withIdx 0 (get_all_chunks (parse_tree content filename) 400 50)).map
           (fun ic => (document_id, ic.1 + 1))) ∧
    (get_all_chunks (parse_tree content filename) 400 50 ≠ [] →
       build_index st' document_id content filename = .error ()) := by
  simp only [build_index] at h
  obtain ⟨sF, hfold, hfs⟩ := except_map_ok _ _ _ h
  have hsF : sF = st' := by
    have := congrArg Prod.fst hfs
    simpa using this
  rw [hsF] at hfold
  obtain ⟨ys, hys1, hys2⟩ := chunk_fold_ok document_id _ 0 _ _ hfold
  simp only at hys1
  rw [(save_nodes_keeps _ _ _ _ _ _).1] at hys1
  simp only at hys1
  refine ⟨⟨ys, hys1, hys2⟩, ?_⟩
  intro hne
  apply build_index_conflict
  · obtain ⟨c0, cs0, hch⟩ := List.exists_cons_of_ne_nil hne
    rw [hch] at hys2
    cases ys with
    | nil => simp [withIdx] at hys2
    | cons r ys'' =>
      refine ⟨r, ?_, ?_⟩
      · rw [hys1]; simp
      · have := congrArg List.head? hys2
        simp [withIdx] at this
        exact this
  · exact hne

/-- The state produced by indexing `c2text` into the empty store. -/
def c2db1 : DB :=
  ⟨[⟨0, 0, "doc".toList, 2⟩],
   [⟨1, 0, none, 0, 0, "doc".toList, 0, 9, none, none, none⟩,
    ⟨2, 0, some 1, 1, 0, ['A'], 4, 9, some "hello".toList, some "hello".toList, none⟩],
   [⟨3, 0, 1, "hello".toList, "doc > A".toList, 1, some 1⟩],
   [], 4⟩

/-- Concrete instance of `c2_amended` on `"# A\nhello"` indexed into the
empty store. -/
theorem c2_amended_witness :
    (∃ ys, c2db1.document_chunks = db0.document_chunks ++ ys ∧
       ys.map (fun r => (r.document_id, r.chunk_index)) =
         (withIdx 0 (get_all_chunks (parse_tree c2text "doc".toList) 400 50)).map
           (fun ic => (0, ic.1 + 1))) ∧
    (get_all_chunks (parse_tree c2text "doc".toList) 400 50 ≠ [] →
       build_index c2db1 0 c2text "doc".toList = .error ()) :=
  c2_amended db0 0 c2text "doc".toList c2db1 (0, 2, 1) rfl

/-- The property C10 asserts of a chunk and the node it was emitted for. -/
def StampsNode (c : ChunkOut) (m : DocNode) : Prop :=
  c.node_id = m.data.node_id ∧ c.char_start = m.data.char_start ∧
    c.char_end = m.data.char_end ∧ pyStrip m.data.content ≠ []

mutual

theorem gac_aux_node (chunk_size overlap : Nat) :
    ∀ (n : DocNode) (path : List (List Char)) (c : ChunkOut),
      c ∈ get_all_chunks_aux chunk_size overlap n path →
      ∃ m ∈ allNodes n, StampsNode c m
  | .mk d csl => fun path c hc => by
    simp only [get_all_chunks_aux] at hc
    rcases List.mem_append.mp hc with h | h
    · by_cases hcont : pyStrip d.content = []
      · rw [if_neg (by simpa using hcont)] at h
        cases h
      · rw [if_pos (by simpa using hcont)] at h
        obtain ⟨ch, _, rfl⟩ := List.mem_map.mp h
        exact ⟨.mk d csl, by simp [allNodes],
          ⟨rfl, rfl, rfl, by simpa [DocNode.data] using hcont⟩⟩
    · obtain ⟨m, hm, hP⟩ := gac_aux_list chunk_size overlap csl _ c h
      exact ⟨m, by simp [allNodes, hm], hP⟩

theorem gac_aux_list (chunk_size overlap : Nat) :
    ∀ (l : List DocNode) (path : List (List Char)) (c : ChunkOut),
      c ∈ get_all_chunks_auxL chunk_size overlap l path →
      ∃ m ∈ allNodesL l, StampsNode c m
  | [] => fun path c hc => by simp [get_all_chunks_auxL] at hc
  | x :: xs => fun path c hc => by
    simp only [get_all_chunks_auxL] at hc
    rcases List.mem_append.mp hc with h | h
    · obtain ⟨m, hm, hP⟩ := gac_aux_node chunk_size overlap x _ c h
      exact ⟨m, by simp [allNodesL, hm], hP⟩
    · obtain ⟨m, hm, hP⟩ := gac_aux_list chunk_size overlap xs _ c h
      exact ⟨m, by simp [allNodesL, hm], hP⟩

end

/-! ### C10 -/

/-- C10 confirmed: every chunk emitted by `get_all_chunks` records
`char_start` and `char_end` equal to the char range of the (non-empty-bodied)
node it was emitted for — the node's *full* range, identical for all chunks
of that node — so chunk-within-node containment holds as equality and a
chunk's offsets never locate it inside its node. -/
theorem c10_chunk_range (chunk_size overlap : Nat) (root : DocNode)
    (c : ChunkOut) (hc : c ∈ get_all_chunks root chunk_size overlap) :
    ∃ m ∈ allNodes root, c.node_id = m.data.node_id ∧
      c.char_start = m.data.char_start ∧ c.char_end = m.data.char_end ∧
      pyStrip m.data.content ≠ [] :=
  gac_aux_node chunk_size overlap root [] c hc

/-- A one-node tree with body `"hello"` spanning `[3, 9)`. -/
def t10 : DocNode := .mk ⟨5, 1, 0, ['T'], "hello".toList, 3, 9⟩ []

/-- Concrete instance of `c10_chunk_range` on `t10`. -/
theorem c10_chunk_range_witness :
    ∃ m ∈ allNodes t10,
      (⟨"hello".toList, 5, ['T'], 1, 3, 9⟩ : ChunkOut).node_id = m.data.node_id ∧
      (⟨"hello".toList, 5, ['T'], 1, 3, 9⟩ : ChunkOut).char_start = m.data.char_start ∧
      (⟨"hello".toList, 5, ['T'], 1, 3, 9⟩ : ChunkOut).char_end = m.data.char_end ∧
      pyStrip m.data.content ≠ [] :=
  c10_chunk_range 400 50 t10 ⟨"hello".toList, 5, ['T'], 1, 3, 9⟩ (by decide)

theorem getD_set_ne {α : Type} (l : List α) (i j : Nat) (v d : α) (h : j ≠ i) :
    (l.set i v).getD j d = l.getD j d := by
  induction l generalizing i j with
  | nil => simp
  | cons a t ih =>
    cases i with
    | zero =>
      cases j with
      | zero => omega
      | succ j' => simp [List.set]
    | succ i' =>
      cases j with
      | zero => simp [List.set]
      | succ j' => simpa [List.set] using ih i' j' (by omega)

theorem getD_set_eq {α : Type} (l : List α) (i : Nat) (v d : α) (h : i < l.length) :
    (l.set i v).getD i d = v := by
  induction l generalizing i with
  | nil => simp at h
  | cons a t ih =>
    cases i with
    | zero => simp [List.set]
    | succ i' => simpa [List.set] using ih i' (by simpa using h)

theorem getD_append_len {α : Type} (l l2 : List α) (x d : α) :
    (l ++ x :: l2).getD l.length d = x := by
  induction l with
  | nil => simp
  | cons a t ih => simpa using ih

/-- `modifyAt` does not change the length. -/
theorem length_modifyAt (l : List PNode) (i : Nat) (f : PNode → PNode) :
    (modifyAt l i f).length = l.length := by
  simp [modifyAt]

theorem getD_modifyAt_ne (l : List PNode) (i j : Nat) (f : PNode → PNode)
    (d : PNode) (h : j ≠ i) : (modifyAt l i f).getD j d = l.getD j d :=
  getD_set_ne l i j _ d h

theorem getD_modifyAt_eq (l : List PNode) (i : Nat) (f : PNode → PNode)
    (d : PNode) (h : i < l.length) :
    (modifyAt l i f).getD i d = f (l.getD i default) :=
  getD_set_eq l i _ d h

theorem popToAux_eq_take :
    ∀ (fuel : Nat) (s : List Nat) (level : Nat), s.length ≤ fuel →
      popToAux fuel s level = s.take level := by
  intro fuel
  induction fuel with
  | zero =>
    intro s level h
    have : s = [] := List.eq_nil_of_length_eq_zero (by omega)
    subst this
    simp [popToAux]
  | succ f ih =>
    intro s level h
    simp only [popToAux]
    by_cases hl : s.length > level
    · rw [if_pos hl]
      rw [ih s.dropLast level (by simp [List.length_dropLast]; omega)]
      rw [List.dropLast_eq_take]
      rw [List.take_take]
      congr 1
      omega
    · rw [if_neg hl]
      exact (List.take_of_length_le (by omega)).symm

/-- The `while len(stack) > level: stack.pop()` loop leaves exactly the first
`level` stack entries (all of them when the stack is shorter). -/
theorem popTo_eq_take (s : List Nat) (level : Nat) : popTo s level = s.take level :=
  popToAux_eq_take s.length s level le_rfl

theorem set_oob {α : Type} (l : List α) (i : Nat) (v : α) (h : l.length ≤ i) :
    l.set i v = l := by
  induction l generalizing i with
  | nil => simp
  | cons a t ih =>
    cases i with
    | zero => simp at h
    | succ i' => simpa [List.set] using ih i' (by simpa using h)

theorem children_modifyAt (l : List PNode) (i : Nat) (f : PNode → PNode)
    (hf : ∀ p, (f p).children = p.children) (j : Nat) :
    ((modifyAt l i f).getD j default).children = (l.getD j default).children := by
  by_cases hij : j = i
  · subst hij
    by_cases hlt : j < l.length
    · rw [getD_modifyAt_eq _ _ _ _ hlt, hf]
    · rw [modifyAt, set_oob _ _ _ (by omega)]
  · rw [getD_modifyAt_ne _ _ _ _ _ hij]

/-! ### C3 amended -/

/-- C3 amended: on a heading line of depth `d` the parser finalizes
`char_end`/`content` of only the node on top of the stack (when the stack
holds more than the root), pops while the stack *length* exceeds `d` — i.e.
keeps the first `d` entries, which is the depth rule only when heading depths
never skip levels — and pushes the new node as a child of the then-top with
`char_start` immediately after the heading line; exactly one node is created
(no intermediate levels are invented) and every other arena entry is left
untouched. -/
theorem c3_amended (content : List Char) (st : PState) (line : List Char)
    (level : Nat) (title : List Char)
    (h : headingOf line = some (level, title))
    (hp : (st.stack.take level).getLastD 0 < st.arena.length) :
    (parse_line content st line).stack = st.stack.take level ++ [st.arena.length] ∧
    (parse_line content st line).pos = st.pos + line.length + 1 ∧
    (parse_line content st line).arena.length = st.arena.length + 1 ∧
    ((parse_line content st line).arena.getD st.arena.length default).char_start =
      st.pos + line.length + 1 ∧
    ((parse_line content st line).arena.getD st.arena.length default).level = level ∧
    ((parse_line content st line).arena.getD st.arena.length default).title = title ∧
    ((parse_line content st line).arena.getD st.arena.length default).children = [] ∧
    ((parse_line content st line).arena.getD
        ((st.stack.take level).getLastD 0) default).children =
      (st.arena.getD ((st.stack.take level).getLastD 0) default).children ++
        [st.arena.length] ∧
    (∀ j, j < st.arena.length → j ≠ st.stack.getLastD 0 →
      j ≠ (st.stack.take level).getLastD 0 →
      (parse_line content st line).arena.getD j default = st.arena.getD j default) := by
  have hlen1 : (if st.stack.length > 1 then
      finalizeTop content st.arena st.stack st.pos else st.arena).length =
      st.arena.length := by
    split
    · simp [finalizeTop, modifyAt]
    · rfl
  have hchild1 : ∀ j, ((if st.stack.length > 1 then
      finalizeTop content st.arena st.stack st.pos else st.arena).getD j
        default).children = (st.arena.getD j default).children := by
    intro j
    split
    · simp only [finalizeTop]
      apply children_modifyAt
      intro p
      rfl
    · rfl
  have huntouched1 : ∀ j, j ≠ st.stack.getLastD 0 →
      (if st.stack.length > 1 then
        finalizeTop content st.arena st.stack st.pos else st.arena).getD j default =
      st.arena.getD j default := by
    intro j hj
    split
    · simp only [finalizeTop]
      exact getD_modifyAt_ne _ _ _ _ _ hj
    · rfl
  refine ⟨?_, ?_, ?_, ?_, ?_, ?_, ?_, ?_, ?_⟩
  · simp only [parse_line, h]
    rw [popTo_eq_take, hlen1]
  · simp only [parse_line, h]
  · simp only [parse_line, h]
    simp [modifyAt, hlen1]
  · simp only [parse_line, h]
    rw [popTo_eq_take]
    rw [show st.arena.length = (modifyAt (if st.stack.length > 1 then
        finalizeTop content st.arena st.stack st.pos else st.arena)
        ((st.stack.take level).getLastD 0) (fun p =>
          { p with children := p.children ++ [(if st.stack.length > 1 then
              finalizeTop content st.arena st.stack st.pos else st.arena).length] })).length
      from by simp [modifyAt, hlen1]]
    rw [getD_append_len]
  · simp only [parse_line, h]
    rw [popTo_eq_take]
    rw [show st.arena.length = (modifyAt (if st.stack.length > 1 then
        finalizeTop content st.arena st.stack st.pos else st.arena)
        ((st.stack.take level).getLastD 0) (fun p =>
          { p with children := p.children ++ [(if st.stack.length > 1 then
              finalizeTop content st.arena st.stack st.pos else st.arena).length] })).length
      from by simp [modifyAt, hlen1]]
    rw [getD_append_len]
  · simp only [parse_line, h]
    rw [popTo_eq_take]
    rw [show st.arena.length = (modifyAt (if st.stack.length > 1 then
        finalizeTop content st.arena st.stack st.pos else st.arena)
        ((st.stack.take level).getLastD 0) (fun p =>
          { p with children := p.children ++ [(if st.stack.length > 1 then
              finalizeTop content st.arena st.stack st.pos else st.arena).length] })).length
      from by simp [modifyAt, hlen1]]
    rw [getD_append_len]
  · simp only [parse_line, h]
    rw [popTo_eq_take]
    rw [show st.arena.length = (modifyAt (if st.stack.length > 1 then
        finalizeTop content st.arena st.stack st.pos else st.arena)
        ((st.stack.take level).getLastD 0) (fun p =>
          { p with children := p.children ++ [(if st.stack.length > 1 then
              finalizeTop content st.arena st.stack st.pos else st.arena).length] })).length
      from by simp [modifyAt, hlen1]]
    rw [getD_append_len]
  · simp only [parse_line, h]
    rw [popTo_eq_take]
    have hb : (st.stack.take level).getLastD 0 < (modifyAt (if st.stack.length > 1 then
        finalizeTop content st.arena st.stack st.pos else st.arena)
        ((st.stack.take level).getLastD 0) (fun p =>
          { p with children := p.children ++ [(if st.stack.length > 1 then
              finalizeTop content st.arena st.stack st.pos else st.arena).length] })).length := by
      rw [length_modifyAt, hlen1]
      exact hp
    rw [List.getD_append _ _ _ _ hb]
    rw [getD_modifyAt_eq _ _ _ _ (by rw [hlen1]; omega)]
    simp only [hlen1, hchild1]
  · intro j hj hj1 hj2
    simp only [parse_line, h]
    rw [popTo_eq_take]
    have hb : j < (modifyAt (if st.stack.length > 1 then
        finalizeTop content st.arena st.stack st.pos else st.arena)
        ((st.stack.take level).getLastD 0) (fun p =>
          { p with children := p.children ++ [(if st.stack.length > 1 then
              finalizeTop content st.arena st.stack st.pos else st.arena).length] })).length := by
      rw [length_modifyAt, hlen1]
      omega
    rw [List.getD_append _ _ _ _ hb]
    rw [getD_modifyAt_ne _ _ _ _ _ hj2]
    exact huntouched1 j hj1

/-- Witness state for `c3_amended`: root plus one open depth-1 node. -/
def c3st : PState :=
  ⟨[⟨0, 0, ['f'], [], 0, 9, [1]⟩, ⟨1, 0, ['A'], [], 4, 9, []⟩], [0, 1], 4⟩

/-- The document of the `c3_amended` witness. -/
def c3content : List Char := "# A\n## B\nx".toList

/-- Concrete instance of `c3_amended` on the heading line `"## B"`. -/
theorem c3_amended_witness :
    (parse_line c3content c3st "## B".toList).stack =
      c3st.stack.take 2 ++ [c3st.arena.length] ∧
    (parse_line c3content c3st "## B".toList).pos =
      c3st.pos + ("## B".toList).length + 1 ∧
    (parse_line c3content c3st "## B".toList).arena.length =
      c3st.arena.length + 1 ∧
    ((parse_line c3content c3st "## B".toList).arena.getD c3st.arena.length
      default).char_start = c3st.pos + ("## B".toList).length + 1 ∧
    ((parse_line c3content c3st "## B".toList).arena.getD c3st.arena.length
      default).level = 2 ∧
    ((parse_line c3content c3st "## B".toList).arena.getD c3st.arena.length
      default).title = ['B'] ∧
    ((parse_line c3content c3st "## B".toList).arena.getD c3st.arena.length
      default).children = [] ∧
    ((parse_line c3content c3st "## B".toList).arena.getD
        ((c3st.stack.take 2).getLastD 0) default).children =
      (c3st.arena.getD ((c3st.stack.take 2).getLastD 0) default).children ++
        [c3st.arena.length] ∧
    (∀ j, j < c3st.arena.length → j ≠ c3st.stack.getLastD 0 →
      j ≠ (c3st.stack.take 2).getLastD 0 →
      (parse_line c3content c3st "## B".toList).arena.getD j default =
        c3st.arena.getD j default) :=
  c3_amended c3content c3st "## B".toList 2 ['B'] (by decide) (by decide)

theorem getD_oob {α : Type} (l : List α) (j : Nat) (d : α) (h : l.length ≤ j) :
    l.getD j d = d := by
  induction l generalizing j with
  | nil => simp
  | cons a t ih =>
    cases j with
    | zero => simp at h
    | succ j' => simpa using ih j' (by simpa using h)

theorem proj_modifyAt {β : Type} (g : PNode → β) (l : List PNode) (i : Nat)
    (f : PNode → PNode) (hf : ∀ p, g (f p) = g p) (j : Nat) :
    g ((modifyAt l i f).getD j default) = g (l.getD j default) := by
  by_cases hij : j = i
  · subst hij
    by_cases hlt : j < l.length
    · rw [getD_modifyAt_eq _ _ _ _ hlt, hf]
    · rw [modifyAt, set_oob _ _ _ (by omega)]
  · rw [getD_modifyAt_ne _ _ _ _ _ hij]

theorem parse_line_nonheading (content : List Char) (st : PState)
    (line : List Char) (hh : headingOf line = none) :
    parse_line content st line = { st with pos := st.pos + line.length + 1 } := by
  simp [parse_line, hh]

theorem parse_line_pos (content : List Char) (st : PState) (line : List Char) :
    (parse_line content st line).pos = st.pos + line.length + 1 := by
  rw [parse_line]
  cases hh : headingOf line with
  | none => rfl
  | some lt => rfl

theorem parse_line_heading_len (content : List Char) (st : PState)
    (line : List Char) (level : Nat) (title : List Char)
    (hh : headingOf line = some (level, title)) :
    (parse_line content st line).arena.length = st.arena.length + 1 := by
  simp only [parse_line, hh]
  simp [modifyAt, finalizeTop]
  split <;> simp [modifyAt]

theorem parse_line_heading_children (content : List Char) (st : PState)
    (line : List Char) (level : Nat) (title : List Char)
    (hh : headingOf line = some (level, title)) (i : Nat)
    (hi : i < st.arena.length) :
    ((parse_line content st line).arena.getD i default).children =
      (if i = (st.stack.take level).getLastD 0 then
        (st.arena.getD i default).children ++ [st.arena.length]
      else (st.arena.getD i default).children) := by
  simp only [parse_line, hh]
  rw [popTo_eq_take]
  have hlen1 : (if st.stack.length > 1 then
      finalizeTop content st.arena st.stack st.pos else st.arena).length =
      st.arena.length := by
    split
    · simp [finalizeTop, modifyAt]
    · rfl
  have hchild1 : ∀ j, ((if st.stack.length > 1 then
      finalizeTop content st.arena st.stack st.pos else st.arena).getD j
        default).children = (st.arena.getD j default).children := by
    intro j
    split
    · simp only [finalizeTop]
      apply proj_modifyAt
      intro p
      rfl
    · rfl
  have hb : i < (modifyAt (if st.stack.length > 1 then
      finalizeTop content st.arena st.stack st.pos else st.arena)
      ((st.stack.take level).getLastD 0) (fun p =>
        { p with children := p.children ++ [(if st.stack.length > 1 then
            finalizeTop content st.arena st.stack st.pos else st.arena).length] })).length := by
    rw [length_modifyAt, hlen1]
    omega
  rw [List.getD_append _ _ _ _ hb]
  by_cases hip : i = (st.stack.take level).getLastD 0
  · rw [if_pos hip]
    subst hip
    rw [getD_modifyAt_eq _ _ _ _ (by rw [hlen1]; omega)]
    simp only [hlen1, hchild1]
  · rw [if_neg hip]
    rw [getD_modifyAt_ne _ _ _ _ _ hip]
    exact hchild1 i

theorem parse_line_heading_charstart (content : List Char) (st : PState)
    (line : List Char) (level : Nat) (title : List Char)
    (hh : headingOf line = some (level, title)) (j : Nat)
    (hj : j < st.arena.length) :
    ((parse_line content st line).arena.getD j default).char_start =
      (st.arena.getD j default).char_start := by
  simp only [parse_line, hh]
  rw [popTo_eq_take]
  have hlen1 : (if st.stack.length > 1 then
      finalizeTop content st.arena st.stack st.pos else st.arena).length =
      st.arena.length := by
    split
    · simp [finalizeTop, modifyAt]
    · rfl
  have hb : j < (modifyAt (if st.stack.length > 1 then
      finalizeTop content st.arena st.stack st.pos else st.arena)
      ((st.stack.take level).getLastD 0) (fun p =>
        { p with children := p.children ++ [(if st.stack.length > 1 then
            finalizeTop content st.arena st.stack st.pos else st.arena).length] })).length := by
    rw [length_modifyAt, hlen1]
    omega
  rw [List.getD_append _ _ _ _ hb]
  have h2 : ∀ x, ((modifyAt (if st.stack.length > 1 then
      finalizeTop content st.arena st.stack st.pos else st.arena)
      ((st.stack.take level).getLastD 0) (fun p =>
        { p with children := p.children ++ [(if st.stack.length > 1 then
            finalizeTop content st.arena st.stack st.pos else st.arena).length] })).getD
      x default).char_start = ((if st.stack.length > 1 then
      finalizeTop content st.arena st.stack st.pos else st.arena).getD x
        default).char_start := by
    intro x
    apply proj_modifyAt
    intro p
    rfl
  rw [h2]
  split
  · simp only [finalizeTop]
    apply proj_modifyAt
    intro p
    rfl
  · rfl

theorem parse_line_heading_new (content : List Char) (st : PState)
    (line : List Char) (level : Nat) (title : List Char)
    (hh : headingOf line = some (level, title)) :
    ((parse_line content st line).arena.getD st.arena.length default).char_start =
      st.pos + line.length + 1 ∧
    ((parse_line content st line).arena.getD st.arena.length default).children = [] := by
  simp only [parse_line, hh]
  rw [popTo_eq_take]
  have hlen1 : (if st.stack.length > 1 then
      finalizeTop content st.arena st.stack st.pos else st.arena).length =
      st.arena.length := by
    split
    · simp [finalizeTop, modifyAt]
    · rfl
  rw [show st.arena.length = (modifyAt (if st.stack.length > 1 then
      finalizeTop content st.arena st.stack st.pos else st.arena)
      ((st.stack.take level).getLastD 0) (fun p =>
        { p with children := p.children ++ [(if st.stack.length > 1 then
            finalizeTop content st.arena st.stack st.pos else st.arena).length] })).length
    from by rw [length_modifyAt, hlen1]]
  rw [getD_append_len]
  exact ⟨rfl, rfl⟩

/-- The parser-state invariant maintained by the `parse_markdown` loop:
the arena is non-empty, children point at existing non-root entries, every
non-root node's `char_start` lies at or before the current scan position, and
every node's children are listed with strictly increasing `char_start`. -/
def ParserInv (st : PState) : Prop :=
  1 ≤ st.arena.length ∧
  (∀ i j, j ∈ (st.arena.getD i default).children → 1 ≤ j ∧ j < st.arena.length) ∧
  (∀ j, 1 ≤ j → j < st.arena.length → (st.arena.getD j default).char_start ≤ st.pos) ∧
  (∀ i, List.Chain' (· < ·) ((st.arena.getD i default).children.map
    (fun j => (st.arena.getD j default).char_start)))

theorem default_children : (default : PNode).children = [] := rfl

theorem parse_line_inv (content : List Char) (line : List Char) (st : PState)
    (h : ParserInv st) : ParserInv (parse_line content st line) := by
  obtain ⟨h0, h1, h2, h3⟩ := h
  cases hh : headingOf line with
  | none =>
    rw [parse_line_nonheading content st line hh]
    refine ⟨h0, h1, ?_, h3⟩
    intro j hj1 hj2
    dsimp only at hj2 ⊢
    have := h2 j hj1 hj2
    omega
  | some lt =>
    obtain ⟨level, title⟩ := lt
    have hlen := parse_line_heading_len content st line level title hh
    have hnew := parse_line_heading_new content st line level title hh
    have hpos := parse_line_pos content st line
    refine ⟨by omega, ?_, ?_, ?_⟩
    · intro i j hj
      by_cases hi : i < st.arena.length
      · rw [parse_line_heading_children content st line level title hh i hi] at hj
        by_cases hip : i = (st.stack.take level).getLastD 0
        · rw [if_pos hip] at hj
          rcases List.mem_append.mp hj with hj' | hj'
          · have := h1 i j hj'
            omega
          · simp at hj'
            omega
        · rw [if_neg hip] at hj
          have := h1 i j hj
          omega
      · by_cases hi2 : i = st.arena.length
        · subst hi2
          rw [hnew.2] at hj
          cases hj
        · rw [getD_oob _ _ _ (by omega), default_children] at hj
          cases hj
    · intro j hj1 hj2
      rw [hlen] at hj2
      by_cases hjl : j < st.arena.length
      · rw [parse_line_heading_charstart content st line level title hh j hjl, hpos]
        have := h2 j hj1 hjl
        omega
      · have hje : j = st.arena.length := by omega
        subst hje
        rw [hnew.1, hpos]
    · intro i
      by_cases hi : i < st.arena.length
      · rw [parse_line_heading_children content st line level title hh i hi]
        have hmapeq : ((st.arena.getD i default).children.map
            (fun j => ((parse_line content st line).arena.getD j default).char_start)) =
            ((st.arena.getD i default).children.map
            (fun j => (st.arena.getD j default).char_start)) := by
          apply List.map_eq_map_iff.mpr
          intro j hj
          exact parse_line_heading_charstart content st line level title hh j
            (h1 i j hj).2
        by_cases hip : i = (st.stack.take level).getLastD 0
        · rw [if_pos hip]
          rw [List.map_append, hmapeq]
          apply List.chain'_append.mpr
          refine ⟨h3 i, by simp, ?_⟩
          intro x hx y hy
          simp only [List.map_cons, List.map_nil, List.head?_cons,
            Option.mem_def, Option.some.injEq] at hy
          rw [List.getLast?_map] at hx
          obtain ⟨j0, hj0, hfj0⟩ := Option.map_eq_some'.mp hx
          have hj0mem : j0 ∈ (st.arena.getD i default).children :=
            List.mem_of_mem_getLast? hj0
          have hb := h1 i j0 hj0mem
          have hs := h2 j0 hb.1 hb.2
          rw [← hy, hnew.1, ← hfj0]
          omega
        · rw [if_neg hip, hmapeq]
          exact h3 i
      · by_cases hi2 : i = st.arena.length
        · subst hi2
          rw [hnew.2]
          simp
        · rw [getD_oob _ _ _ (by omega), default_children]
          simp

theorem foldl_parse_inv (content : List Char) :
    ∀ (lines : List (List Char)) (st : PState), ParserInv st →
      ParserInv (lines.foldl (parse_line content) st) := by
  intro lines
  induction lines with
  | nil => intro st h; exact h
  | cons l ls ih =>
    intro st h
    exact ih _ (parse_line_inv content l st h)

theorem closeFinal_children (content : List Char) (st : PState) (i : Nat) :
    (((closeFinal content st).arena.getD i default)).children =
      ((st.arena.getD i default)).children := by
  rw [closeFinal]
  split
  · simp only [finalizeTop]
    apply proj_modifyAt
    intro p
    rfl
  · rfl

theorem closeFinal_charstart (content : List Char) (st : PState) (j : Nat) :
    (((closeFinal content st).arena.getD j default)).char_start =
      ((st.arena.getD j default)).char_start := by
  rw [closeFinal]
  split
  · simp only [finalizeTop]
    apply proj_modifyAt
    intro p
    rfl
  · rfl

/-! ### C1 amended -/

/-- C1 amended: in the arena produced by `parse_markdown`, every node lists
its children in document order with strictly increasing `char_start`. (The
claimed exact cover is false — see the counterexample — because heading lines
are excluded from every child's range and nodes popped while buried in the
stack keep `char_end` = document length.) -/
theorem c1_amended (content filename : List Char) (i : Nat) :
    List.Chain' (· < ·)
      (((parse_markdown content filename).getD i default).children.map
        (fun j => ((parse_markdown content filename).getD j default).char_start)) := by
  rw [parse_markdown]
  have hinv : ParserInv ((splitNL content).foldl (parse_line content)
      ⟨[{ level := 0, index := 0,
          title := if filename = [] then ['文', '档', '根', '节', '点'] else filename,
          content := [], char_start := 0, char_end := content.length,
          children := [] }], [0], 0⟩) := by
    apply foldl_parse_inv
    refine ⟨by simp, ?_, ?_, ?_⟩
    · intro i j hj
      cases i with
      | zero => cases hj
      | succ i' =>
        rw [getD_oob _ _ _ (by simp), default_children] at hj
        cases hj
    · intro j hj1 hj2
      simp only [List.length_cons, List.length_nil] at hj2
      omega
    · intro i
      cases i with
      | zero => simp
      | succ i' =>
        rw [getD_oob _ _ _ (by simp), default_children]
        simp
  set stF := (splitNL content).foldl (parse_line content)
    ⟨[{ level := 0, index := 0,
        title := if filename = [] then ['文', '档', '根', '节', '点'] else filename,
        content := [], char_start := 0, char_end := content.length,
        children := [] }], [0], 0⟩ with hstF
  obtain ⟨-, h1, -, h3⟩ := hinv
  have hmapeq : ∀ k, ((closeFinal content stF).arena.getD k default).children.map
      (fun j => ((closeFinal content stF).arena.getD j default).char_start) =
      (stF.arena.getD k default).children.map
      (fun j => (stF.arena.getD j default).char_start) := by
    intro k
    rw [closeFinal_children]
    apply List.map_eq_map_iff.mpr
    intro j hj
    exact closeFinal_charstart content _ j
  rw [hmapeq i]
  exact h3 i

/-- No whitespace character occurs in `l`. -/
def NoWs (l : List Char) : Prop :=
  ∀ c ∈ l, isPySpace c = false

theorem dropWhile_eq_self_of_noWs {l : List Char} (h : NoWs l) :
    l.dropWhile isPySpace = l := by
  cases l with
  | nil => rfl
  | cons a t => simp [List.dropWhile, h a (by simp)]

theorem pyStrip_eq_self {l : List Char} (h : NoWs l) : pyStrip l = l := by
  rw [pyStrip, dropWhile_eq_self_of_noWs h,
    dropWhile_eq_self_of_noWs (fun c hc => h c (by simpa using hc))]
  simp

theorem paraSplitAux_no_nl :
    ∀ (fuel : Nat) (l : List Char), (∀ c ∈ l, c ≠ '\n') →
      paraSplitAux fuel l = [l] := by
  intro fuel
  induction fuel with
  | zero =>
    intro l h
    cases l <;> rfl
  | succ f ih =>
    intro l h
    cases l with
    | nil => rfl
    | cons c t =>
      have hc : c ≠ '\n' := h c (by simp)
      simp only [paraSplitAux, hc, if_false]
      rw [ih t (fun x hx => h x (by simp [hx]))]
      rfl

theorem paraSplit_no_nl {l : List Char} (h : ∀ c ∈ l, c ≠ '\n') :
    paraSplit l = [l] :=
  paraSplitAux_no_nl _ l h

theorem noWs_no_nl {l : List Char} (h : NoWs l) : ∀ c ∈ l, c ≠ '\n' := by
  intro c hc he
  have := h c hc
  rw [he] at this
  simp [isPySpace] at this

theorem mem_splitSentences_subset {l s : List Char} (hs : s ∈ splitSentences l) :
    ∀ c ∈ s, c ∈ l := by
  intro c hc
  rw [← flatten_splitSentences l]
  exact List.mem_flatten.mpr ⟨s, hs, hc⟩

theorem lastD_irrel {α : Type} (l : List α) (a d1 d2 : α) :
    (a :: l).getLastD d1 = (a :: l).getLastD d2 := by
  induction l generalizing a with
  | nil => rfl
  | cons b t ih => simpa [List.getLastD_cons] using ih b

theorem trimConcatGo_append (ov : Nat) :
    ∀ (xs : List (List Char)) (prev y : List Char),
      trimConcatGo ov prev (xs ++ [y]) =
        trimConcatGo ov prev xs ++
          y.drop (min ov (((prev :: xs).getLastD []).length)) := by
  intro xs
  induction xs with
  | nil => intro prev y; simp [trimConcatGo]
  | cons c rest ih =>
    intro prev y
    simp only [List.cons_append, trimConcatGo, List.append_eq]
    rw [ih c y]
    rw [List.append_assoc]
    have : (prev :: c :: rest).getLastD [] = (c :: rest).getLastD [] := by
      rw [List.getLastD_cons]
      exact lastD_irrel rest c prev []
    rw [this]

theorem trimConcat_append (ov : Nat) (xs : List (List Char)) (y : List Char) :
    trimConcat ov (xs ++ [y]) =
      trimConcat ov xs ++
        (if xs = [] then y else y.drop (min ov ((xs.getLastD []).length))) := by
  cases xs with
  | nil => simp [trimConcat, trimConcatGo]
  | cons c rest =>
    simp only [List.cons_append, trimConcat]
    rw [trimConcatGo_append]
    rw [if_neg (by simp)]
    simp [List.append_assoc]

theorem length_pyTakeLast (l : List Char) (n : Nat) :
    (pyTakeLast l n).length = min n l.length := by
  simp [pyTakeLast]
  omega

/-- Invariant of the `_smart_split` accumulation loop on whitespace-free
data: the trim-concatenation of the chunks plus the open buffer equals the
input consumed so far, everything is whitespace-free, and the buffer is at
least as long as the overlap seed inherited from the last emitted chunk. -/
def SInv (ov : Nat) (st : SState) (done : List Char) : Prop :=
  trimConcat ov (st.chunks ++ [st.buf]) = done ∧
  (∀ c ∈ st.chunks, NoWs c) ∧ NoWs st.buf ∧
  (st.chunks ≠ [] → min ov ((st.chunks.getLastD []).length) ≤ st.buf.length)

theorem noWs_append {a b : List Char} (ha : NoWs a) (hb : NoWs b) :
    NoWs (a ++ b) := by
  intro c hc
  rcases List.mem_append.mp hc with h | h
  · exact ha c h
  · exact hb c h

theorem noWs_drop {a : List Char} (n : Nat) (ha : NoWs a) : NoWs (a.drop n) :=
  fun c hc => ha c (List.mem_of_mem_drop hc)

theorem emitSeed_SInv (cs ov : Nat) (st : SState) (s done : List Char)
    (h : SInv ov st done) (hs : NoWs s) (hbne : st.buf ≠ []) :
    SInv ov (emitSeed ov st s) (done ++ s) := by
  obtain ⟨h1, h2, h3, h4⟩ := h
  have hstrip : pyStrip st.buf = st.buf := pyStrip_eq_self h3
  have hseedlen : (if ov > 0 then pyTakeLast st.buf ov else []).length =
      min ov st.buf.length := by
    split
    · rw [length_pyTakeLast]
    · simp
      omega
  refine ⟨?_, ?_, ?_, ?_⟩
  · simp only [emitSeed, hstrip]
    rw [show st.chunks ++ [st.buf] ++
        [(if ov > 0 then pyTakeLast st.buf ov else []) ++ s] =
      (st.chunks ++ [st.buf]) ++
        [(if ov > 0 then pyTakeLast st.buf ov else []) ++ s] from by simp]
    rw [trimConcat_append]
    rw [if_neg (by simp)]
    rw [List.getLastD_concat]
    rw [h1]
    congr 1
    rw [← hseedlen, List.drop_append_of_le_length le_rfl]
    simp
  · intro c hc
    simp only [emitSeed] at hc
    rcases List.mem_append.mp hc with h | h
    · exact h2 c h
    · simp at h
      rw [h, hstrip]
      exact h3
  · simp only [emitSeed]
    apply noWs_append _ hs
    split
    · exact noWs_drop _ h3
    · intro c hc
      cases hc
  · intro _
    simp only [emitSeed, List.getLastD_concat, hstrip]
    rw [List.length_append, hseedlen]
    omega

theorem stepSent_SInv (cs ov : Nat) (st : SState) (s done : List Char)
    (h : SInv ov st done) (hs : NoWs s) :
    SInv ov (stepSent cs ov st s) (done ++ s) := by
  rw [stepSent]
  split
  · next hcond => exact emitSeed_SInv cs ov st s done h hs hcond.2
  · obtain ⟨h1, h2, h3, h4⟩ := h
    refine ⟨?_, h2, noWs_append h3 hs, ?_⟩
    · simp only
      rw [trimConcat_append] at h1 ⊢
      cases hch : st.chunks with
      | nil =>
        rw [hch] at h1
        simp [trimConcat] at h1 ⊢
        rw [h1]
      | cons a b =>
        rw [hch] at h1 h4
        rw [if_neg (by simp)] at h1 ⊢
        rw [List.drop_append_of_le_length (h4 (by simp))]
        rw [← List.append_assoc, h1]
    · intro hne
      simp only
      rw [List.length_append]
      have := h4 hne
      omega

theorem foldl_stepSent_SInv (cs ov : Nat) :
    ∀ (ss : List (List Char)) (st : SState) (done : List Char),
      SInv ov st done → (∀ s ∈ ss, NoWs s) →
      SInv ov (ss.foldl (stepSent cs ov) st) (done ++ ss.flatten) := by
  intro ss
  induction ss with
  | nil => intro st done h _; simpa using h
  | cons s rest ih =>
    intro st done h hws
    simp only [List.foldl_cons, List.flatten_cons]
    rw [show done ++ (s ++ rest.flatten) = (done ++ s) ++ rest.flatten from by simp]
    exact ih _ _ (stepSent_SInv cs ov st s done h (hws s (by simp)))
      (fun x hx => hws x (by simp [hx]))

/-- C7: On whitespace-free input, trim-concatenation of the chunks
reconstructs the input exactly. -/
theorem c7_amended (content : List Char) (chunk_size overlap : Nat)
    (h : ∀ c ∈ content, isPySpace c = false) :
    trimConcat overlap (smart_split content chunk_size overlap) = content := by
  have hnw : NoWs content := h
  have hnl : ∀ c ∈ content, c ≠ '\n' := noWs_no_nl hnw
  have hps : paraSplit content = [content] := paraSplit_no_nl hnl
  have hstrip : pyStrip content = content := pyStrip_eq_self hnw
  rw [smart_split, hps]
  simp only [List.foldl_cons, List.foldl_nil, hstrip]
  by_cases hempty : content = []
  · subst hempty
    simp [trimConcat, pyStrip]
  · rw [if_neg hempty]
    by_cases hbig : content.length > chunk_size
    · rw [if_pos hbig]
      have hstart : SInv overlap ⟨[], []⟩ [] := by
        refine ⟨by simp [trimConcat, trimConcatGo], ?_, ?_, ?_⟩
        · intro c hc; cases hc
        · intro c hc; cases hc
        · intro hne; exact absurd rfl hne
      have hws : ∀ s ∈ splitSentences content, NoWs s := fun s hs c hc =>
        hnw c (mem_splitSentences_subset hs c hc)
      have hinv := foldl_stepSent_SInv chunk_size overlap (splitSentences content)
        ⟨[], []⟩ [] hstart hws
      rw [flatten_splitSentences, List.nil_append] at hinv
      obtain ⟨h1, _, h3, _⟩ := hinv
      set stF := (splitSentences content).foldl (stepSent chunk_size overlap)
        (⟨[], []⟩ : SState) with hstF
      have hbufs : pyStrip stF.buf = stF.buf := pyStrip_eq_self h3
      rw [hbufs]
      by_cases hb : stF.buf = []
      · rw [if_neg (by simp [hb])]
        rw [hb, trimConcat_append] at h1
        cases hc : stF.chunks with
        | nil =>
          rw [hc] at h1
          simpa [trimConcat] using h1.symm
        | cons a b =>
          rw [hc] at h1
          simpa using h1
      · rw [if_pos hb]
        exact h1
    · rw [if_neg hbig]
      simp [stepPara, hstrip, hempty, pyStrip_eq_self hnw, trimConcat, trimConcatGo]

/-- Concrete instance of the amended C7 statement: three sentence units with
overlap 1 are emitted as three chunks whose trim-concatenation restores the
input. -/
theorem c7_amended_witness :
    (∀ c ∈ "ab。cd。ef".toList, isPySpace c = false) ∧
    trimConcat 1 (smart_split "ab。cd。ef".toList 4 1) = "ab。cd。ef".toList :=
  ⟨by decide, c7_amended "ab。cd。ef".toList 4 1 (by decide)⟩

/-! ### C9: a unit longer than `chunk_size` is carried whole into a chunk -/

theorem headD_append_of_ne_nil {α : Type} (a b : List α) (d : α) (h : a ≠ []) :
    (a ++ b).headD d = a.headD d := by
  cases a with
  | nil => exact absurd rfl h
  | cons x t => rfl

theorem getLastD_eq_headD_reverse {α : Type} (l : List α) (d : α) :
    l.getLastD d = l.reverse.headD d := by
  induction l using List.reverseRecOn with
  | nil => rfl
  | append_singleton xs x ih => simp [List.getLastD_concat]

theorem getLastD_append_of_ne_nil {α : Type} (t w : List α) (d : α) (h : w ≠ []) :
    (t ++ w).getLastD d = w.getLastD d := by
  rw [getLastD_eq_headD_reverse, getLastD_eq_headD_reverse, List.reverse_append]
  exact headD_append_of_ne_nil _ _ _ (by simpa using h)

theorem dropWhile_headD_not (l : List Char) (h : l.dropWhile isPySpace ≠ []) :
    isPySpace ((l.dropWhile isPySpace).headD 'a') = false := by
  induction l with
  | nil => simp at h
  | cons a t ih =>
    rw [List.dropWhile_cons] at h ⊢
    by_cases ha : isPySpace a = true
    · rw [if_pos ha] at h ⊢
      exact ih h
    · rw [if_neg ha] at h ⊢
      simpa using ha

theorem pyStrip_infix_self (l : List Char) : pyStrip l <:+: l := by
  have h1 : List.dropWhile isPySpace l <:+ l := List.dropWhile_suffix _
  have h2 : pyStrip l <+: List.dropWhile isPySpace l := by
    rw [pyStrip]
    obtain ⟨t, ht⟩ :=
      List.dropWhile_suffix (l := (List.dropWhile isPySpace l).reverse) (p := isPySpace)
    refine ⟨t.reverse, ?_⟩
    rw [← List.reverse_append, ht, List.reverse_reverse]
  exact h2.isInfix.trans h1.isInfix

theorem pyStrip_ne_nil_parts (l : List Char) (h : pyStrip l ≠ []) :
    List.dropWhile isPySpace l ≠ [] ∧
    (List.dropWhile isPySpace l).reverse.dropWhile isPySpace ≠ [] := by
  rw [pyStrip] at h
  constructor
  · intro hd
    apply h
    rw [hd]
    rfl
  · intro hw
    apply h
    rw [hw]
    rfl

theorem pyStrip_headD (l : List Char) (h : pyStrip l ≠ []) :
    isPySpace ((pyStrip l).headD 'a') = false := by
  obtain ⟨hd, hw⟩ := pyStrip_ne_nil_parts l h
  obtain ⟨t, ht⟩ :=
    List.dropWhile_suffix (l := (List.dropWhile isPySpace l).reverse) (p := isPySpace)
  have e1 : (pyStrip l).headD 'a' = (List.dropWhile isPySpace l).headD 'a' := by
    rw [pyStrip, ← getLastD_eq_headD_reverse, ← getLastD_append_of_ne_nil t _ 'a' hw, ht,
        getLastD_eq_headD_reverse, List.reverse_reverse]
  rw [e1]
  exact dropWhile_headD_not l hd

theorem pyStrip_getLastD (l : List Char) (h : pyStrip l ≠ []) :
    isPySpace ((pyStrip l).getLastD 'a') = false := by
  obtain ⟨hd, hw⟩ := pyStrip_ne_nil_parts l h
  rw [pyStrip, getLastD_eq_headD_reverse, List.reverse_reverse]
  exact dropWhile_headD_not _ hw

theorem dropWhile_append_infix {c₀ : Char} (hc : isPySpace c₀ = false) (v y : List Char) :
    ∀ x : List Char, ∃ x',
      List.dropWhile isPySpace (x ++ (c₀ :: v) ++ y) = x' ++ (c₀ :: v) ++ y := by
  intro x
  induction x with
  | nil =>
    refine ⟨[], ?_⟩
    simp [List.dropWhile_cons, hc]
  | cons a t ih =>
    by_cases ha : isPySpace a = true
    · obtain ⟨x', hx'⟩ := ih
      refine ⟨x', ?_⟩
      simpa [List.dropWhile_cons, ha] using hx'
    · exact ⟨a :: t, by simp [List.dropWhile_cons, ha]⟩

/-- A nonempty whitespace-trimmed block that occurs inside `l` still occurs
inside `l.strip()`. -/
theorem infix_pyStrip {v l : List Char}
    (hhead : isPySpace (v.headD 'a') = false)
    (hlast : isPySpace (v.getLastD 'a') = false)
    (hv : v ≠ []) (hinf : v <:+: l) : v <:+: pyStrip l := by
  obtain ⟨x, y, hxy⟩ := hinf
  rw [← hxy]
  cases hv0 : v with
  | nil => exact absurd hv0 hv
  | cons c₀ v' =>
    subst hv0
    have hc₀ : isPySpace c₀ = false := by simpa using hhead
    obtain ⟨x', hx'⟩ := dropWhile_append_infix hc₀ v' y x
    rw [pyStrip, hx']
    obtain ⟨b, w, hbw⟩ : ∃ b w, (c₀ :: v').reverse = b :: w := by
      cases hr : (c₀ :: v').reverse with
      | nil => simp at hr
      | cons b w => exact ⟨b, w, rfl⟩
    have hb : isPySpace b = false := by
      have := getLastD_eq_headD_reverse (c₀ :: v') 'a'
      rw [hbw] at this
      rw [this] at hlast
      simpa using hlast
    have hrev : (x' ++ (c₀ :: v') ++ y).reverse = y.reverse ++ (b :: w) ++ x'.reverse := by
      rw [← hbw]
      simp [List.reverse_append]
    rw [hrev]
    obtain ⟨y', hy'⟩ := dropWhile_append_infix hb w x'.reverse y.reverse
    rw [hy']
    refine ⟨x', y'.reverse, ?_⟩
    rw [← hbw]
    simp [List.reverse_append]

/-- C9 accumulation property: the stripped unit occurs inside an already
emitted chunk or inside the open buffer. -/
def HasU (u : List Char) (st : SState) : Prop :=
  (∃ c ∈ st.chunks, pyStrip u <:+: c) ∨ pyStrip u <:+: st.buf

theorem emitSeed_hasU {u : List Char} (ov : Nat) (st : SState) (s : List Char)
    (hu : pyStrip u ≠ []) (h : HasU u st) : HasU u (emitSeed ov st s) := by
  cases h with
  | inl h =>
    obtain ⟨c, hc, hic⟩ := h
    exact Or.inl ⟨c, by simp [emitSeed, hc], hic⟩
  | inr h =>
    exact Or.inl ⟨pyStrip st.buf, by simp [emitSeed],
      infix_pyStrip (pyStrip_headD u hu) (pyStrip_getLastD u hu) hu h⟩

theorem stepSent_hasU {u : List Char} (cs ov : Nat) (st : SState) (s : List Char)
    (hu : pyStrip u ≠ []) (h : HasU u st) : HasU u (stepSent cs ov st s) := by
  rw [stepSent]
  split
  · exact emitSeed_hasU ov st s hu h
  · cases h with
    | inl h => exact Or.inl (by simpa using h)
    | inr h => exact Or.inr (h.trans (List.prefix_append st.buf s).isInfix)

theorem stepSent_self (cs ov : Nat) (st : SState) (u : List Char) :
    HasU u (stepSent cs ov st u) := by
  rw [stepSent]
  split
  · exact Or.inr ((pyStrip_infix_self u).trans
      (List.suffix_append (if ov > 0 then pyTakeLast st.buf ov else []) u).isInfix)
  · exact Or.inr ((pyStrip_infix_self u).trans (List.suffix_append st.buf u).isInfix)

theorem stepPara_hasU {u : List Char} (cs ov : Nat) (st : SState) (p : List Char)
    (hu : pyStrip u ≠ []) (h : HasU u st) : HasU u (stepPara cs ov st p) := by
  rw [stepPara]
  split
  · exact emitSeed_hasU ov st p hu h
  · cases h with
    | inl h => exact Or.inl (by simpa using h)
    | inr h =>
      right
      simp only
      split
      · exact h.trans (List.prefix_append st.buf ('\n' :: '\n' :: p)).isInfix
      · next hb =>
        exfalso
        apply hu
        have hnil : st.buf = [] := by
          by_contra hbne
          exact hb hbne
        rw [hnil] at h
        exact List.eq_nil_of_infix_nil h

theorem stepPara_self (cs ov : Nat) (st : SState) (p : List Char) :
    HasU p (stepPara cs ov st p) := by
  rw [stepPara]
  split
  · exact Or.inr ((pyStrip_infix_self p).trans
      (List.suffix_append (if ov > 0 then pyTakeLast st.buf ov else []) p).isInfix)
  · right
    simp only
    split
    · exact (pyStrip_infix_self p).trans ⟨st.buf ++ ['\n', '\n'], by simp⟩
    · exact pyStrip_infix_self p

theorem foldl_stepSent_hasU {u : List Char} (cs ov : Nat) (ss : List (List Char))
    (hu : pyStrip u ≠ []) :
    ∀ st : SState, HasU u st → HasU u (ss.foldl (stepSent cs ov) st) := by
  induction ss with
  | nil => intro st h; exact h
  | cons s rest ih =>
    intro st h
    exact ih _ (stepSent_hasU cs ov st s hu h)

theorem foldl_stepSent_mem {u : List Char} (cs ov : Nat) (ss : List (List Char))
    (hu : pyStrip u ≠ []) (hmem : u ∈ ss) :
    ∀ st : SState, HasU u (ss.foldl (stepSent cs ov) st) := by
  induction ss with
  | nil => cases hmem
  | cons s rest ih =>
    intro st
    rcases List.mem_cons.mp hmem with rfl | hm
    · exact foldl_stepSent_hasU cs ov rest hu _ (stepSent_self cs ov st u)
    · exact ih hm _

/-- One iteration of the outer paragraph loop of `_smart_split`. -/
def paraStep (chunk_size overlap : Nat) (st : SState) (para : List Char) : SState :=
  if pyStrip para = [] then st
  else if (pyStrip para).length > chunk_size then
    (splitSentences (pyStrip para)).foldl (stepSent chunk_size overlap) st
  else stepPara chunk_size overlap st (pyStrip para)

theorem smart_split_eq (content : List Char) (cs ov : Nat) :
    smart_split content cs ov =
      (if pyStrip ((paraSplit content).foldl (paraStep cs ov) ⟨[], []⟩).buf ≠ []
       then ((paraSplit content).foldl (paraStep cs ov) ⟨[], []⟩).chunks ++
         [pyStrip ((paraSplit content).foldl (paraStep cs ov) ⟨[], []⟩).buf]
       else ((paraSplit content).foldl (paraStep cs ov) ⟨[], []⟩).chunks) := rfl

theorem paraStep_hasU {u : List Char} (cs ov : Nat) (st : SState) (para : List Char)
    (hu : pyStrip u ≠ []) (h : HasU u st) : HasU u (paraStep cs ov st para) := by
  rw [paraStep]
  split
  · exact h
  · split
    · exact foldl_stepSent_hasU cs ov _ hu st h
    · exact stepPara_hasU cs ov st _ hu h

theorem paraStep_estab {u : List Char} (cs ov : Nat) (st : SState) (para : List Char)
    (hu : pyStrip u ≠ [])
    (hmem : u ∈ (if pyStrip para = [] then []
      else if (pyStrip para).length > cs then splitSentences (pyStrip para)
      else [pyStrip para])) :
    HasU u (paraStep cs ov st para) := by
  rw [paraStep]
  split
  · next hp => rw [if_pos hp] at hmem; cases hmem
  · next hp =>
    rw [if_neg hp] at hmem
    split
    · next hbig =>
      rw [if_pos hbig] at hmem
      exact foldl_stepSent_mem cs ov _ hu hmem st
    · next hbig =>
      rw [if_neg hbig] at hmem
      have : u = pyStrip para := by simpa using hmem
      rw [this]
      exact stepPara_self cs ov st (pyStrip para)

theorem foldl_paraStep_hasU {u : List Char} (cs ov : Nat) (ps : List (List Char))
    (hu : pyStrip u ≠ []) :
    ∀ st : SState, HasU u st → HasU u (ps.foldl (paraStep cs ov) st) := by
  induction ps with
  | nil => intro st h; exact h
  | cons q rest ih =>
    intro st h
    exact ih _ (paraStep_hasU cs ov st q hu h)

theorem foldl_paraStep_mem {u : List Char} (cs ov : Nat) (ps : List (List Char))
    (hu : pyStrip u ≠ [])
    (hmem : ∃ para ∈ ps, u ∈ (if pyStrip para = [] then []
      else if (pyStrip para).length > cs then splitSentences (pyStrip para)
      else [pyStrip para])) :
    ∀ st : SState, HasU u (ps.foldl (paraStep cs ov) st) := by
  induction ps with
  | nil => obtain ⟨para, hp, _⟩ := hmem; cases hp
  | cons q rest ih =>
    intro st
    obtain ⟨para, hp, hup⟩ := hmem
    simp only [List.foldl_cons]
    rcases List.mem_cons.mp hp with rfl | hpr
    · exact foldl_paraStep_hasU cs ov rest hu _ (paraStep_estab cs ov st para hu hup)
    · exact ih ⟨para, hpr, hup⟩ (paraStep cs ov st q)

/-- C9: a unit (paragraph, or sentence of an oversized paragraph) longer than
`chunk_size` is never truncated: its stripped text occurs whole inside one of
the emitted chunks, and `_smart_split` is total (it never raises). -/
theorem c9_oversized_unit (content : List Char) (chunk_size overlap : Nat) (u : List Char)
    (hmem : u ∈ unitsOf content chunk_size)
    (hbig : chunk_size < u.length)
    (hus : pyStrip u ≠ []) :
    ∃ c ∈ smart_split content chunk_size overlap, pyStrip u <:+: c := by
  have hHas : HasU u ((paraSplit content).foldl (paraStep chunk_size overlap) ⟨[], []⟩) := by
    apply foldl_paraStep_mem chunk_size overlap _ hus
    · rw [unitsOf] at hmem
      obtain ⟨l, hl, hul⟩ := List.mem_flatten.mp hmem
      obtain ⟨para, hpara, hplu⟩ := List.mem_map.mp hl
      refine ⟨para, hpara, ?_⟩
      rw [← hplu] at hul
      simpa using hul
  rw [smart_split_eq]
  cases hHas with
  | inl h =>
    obtain ⟨c, hc, hic⟩ := h
    split
    · exact ⟨c, List.mem_append_left _ hc, hic⟩
    · exact ⟨c, hc, hic⟩
  | inr h =>
    have hstrip : pyStrip u <:+:
        pyStrip ((paraSplit content).foldl (paraStep chunk_size overlap) ⟨[], []⟩).buf :=
      infix_pyStrip (pyStrip_headD u hus) (pyStrip_getLastD u hus) hus h
    have hnil : pyStrip ((paraSplit content).foldl (paraStep chunk_size overlap) ⟨[], []⟩).buf ≠ [] := by
      intro h0
      rw [h0] at hstrip
      exact hus (List.eq_nil_of_infix_nil hstrip)
    rw [if_pos hnil]
    exact ⟨_, List.mem_append_right _ (by simp), hstrip⟩

/-- Concrete instance of C9: with chunk_size 5, the 8-character sentence unit
of a 12-character paragraph exceeds chunk_size and still appears whole in an
emitted chunk. -/
theorem c9_oversized_unit_witness :
    "bbbbbbb。".toList ∈ unitsOf "aa。bbbbbbb。".toList 5 ∧
    5 < "bbbbbbb。".toList.length ∧
    pyStrip "bbbbbbb。".toList ≠ [] ∧
    ∃ c ∈ smart_split "aa。bbbbbbb。".toList 5 0, pyStrip "bbbbbbb。".toList <:+: c :=
  ⟨by decide, by decide, by decide,
    c9_oversized_unit "aa。bbbbbbb。".toList 5 0 "bbbbbbb。".toList
      (by decide) (by decide) (by decide)⟩
